import Mathlib

/-!
Verification of the OCTI meeting recorder (octiCombined.py / octiLauncher.py).

Strings are modelled as lists of characters (`Str`). Python `float` values are
modelled as exact rationals (`ℚ`); all numeric literals that occur in the
program are decimal fractions, which rationals represent exactly, and the only
rounding in the program (rendering to hundredths of a second) is modelled
explicitly. Fallible Python operations (`int(..)` / `float(..)` conversions,
which raise `ValueError` on bad input) are modelled with `Option`, `none`
standing for the raised exception.
-/

namespace Octi

/-- A Python string, modelled as its list of characters. -/
abbrev Str := List Char

/-- ASCII decimal digit test (the `\d` class of the patterns in the source,
restricted to ASCII, and the digits accepted by `int()` / `float()`). -/
def isDigitCh (c : Char) : Bool := 48 ≤ c.toNat && c.toNat ≤ 57

/-- Python whitespace test (`\s`, `str.strip()`), ASCII fragment. -/
def isSpaceCh (c : Char) : Bool :=
  c = ' ' || c = '\t' || c = '\n' || c = '\r' || c = '\x0b' || c = '\x0c'

/-- Python `s.count(c)` for a single-character needle. -/
def countChar (c : Char) (s : Str) : ℕ := s.countP (fun x => x = c)

/-- Helper for `splitOn`: accumulates the current field (reversed). -/
def splitOnAux (sep : Char) : Str → Str → List Str
  | [], acc => [acc.reverse]
  | c :: cs, acc =>
    if c = sep then acc.reverse :: splitOnAux sep cs []
    else splitOnAux sep cs (c :: acc)

/-- Python `s.split(sep)` for a single-character separator: splits at every
occurrence, keeping empty fields. -/
def splitOn (sep : Char) (s : Str) : List Str := splitOnAux sep s []

/-- The decimal digit character for `d` (for `d ≤ 9`). -/
def digitCh (d : ℕ) : Char :=
  match d with
  | 0 => '0' | 1 => '1' | 2 => '2' | 3 => '3' | 4 => '4'
  | 5 => '5' | 6 => '6' | 7 => '7' | 8 => '8' | _ => '9'

/-- Helper for `parseDigits`: left-to-right accumulation of a decimal value. -/
def parseDigitsAux (acc : ℕ) : Str → Option ℕ
  | [] => some acc
  | c :: cs =>
    if isDigitCh c then parseDigitsAux (acc * 10 + (c.toNat - 48)) cs else none

/-- Parses a nonempty all-digit string to its decimal value; `none` otherwise. -/
def parseDigits : Str → Option ℕ
  | [] => none
  | s => parseDigitsAux 0 s

/-- Python `int(s)`: optional sign followed by decimal digits.
`none` models the `ValueError` raised on any other shape. -/
def pyInt (s : Str) : Option ℤ :=
  match s with
  | [] => none
  | c :: r =>
    if c = '-' then (parseDigits r).map (fun n => -(n : ℤ))
    else if c = '+' then (parseDigits r).map (fun n => (n : ℤ))
    else (parseDigits s).map (fun n => (n : ℤ))

/-- Unsigned core of Python `float(s)`: decimal notation `digits`, `digits.`,
`.digits` or `digits.digits` (the fragment of the float grammar the program
can meet; exponent and special forms are never produced by the callers). -/
def pyFloatCore (s : Str) : Option ℚ :=
  match splitOn '.' s with
  | [i] => (parseDigits i).map (fun n => (n : ℚ))
  | [i, f] =>
    if i = [] && f = [] then none
    else
      match (if i = [] then some 0 else parseDigits i),
            (if f = [] then some 0 else parseDigits f) with
      | some ni, some nf => some ((ni : ℚ) + (nf : ℚ) / 10 ^ f.length)
      | _, _ => none
  | _ => none

/-- Python `float(s)` (decimal fragment), with optional sign.
`none` models the `ValueError` raised on any other shape. -/
def pyFloat (s : Str) : Option ℚ :=
  match s with
  | [] => none
  | c :: r =>
    if c = '-' then (pyFloatCore r).map (fun q => -q)
    else if c = '+' then pyFloatCore r
    else pyFloatCore s

/-- `to_seconds` from octiCombined.py: counts `:` separators to pick the
dialect; two ⇒ `int(h)*3600 + int(m)*60 + float(s)`, one ⇒
`int(m)*60 + float(s)`, anything else ⇒ `0.0`. -/
def to_seconds (ts : Str) : Option ℚ :=
  if countChar ':' ts = 2 then
    match splitOn ':' ts with
    | [hh, mm, ss] =>
      match pyInt hh, pyInt mm, pyFloat ss with
      | some hv, some mv, some sv => some ((hv : ℚ) * 3600 + (mv : ℚ) * 60 + sv)
      | _, _, _ => none
    | _ => none
  else if countChar ':' ts = 1 then
    match splitOn ':' ts with
    | [mm, ss] =>
      match pyInt mm, pyFloat ss with
      | some mv, some sv => some ((mv : ℚ) * 60 + sv)
      | _, _ => none
    | _ => none
  else
    some 0

/-- Decimal rendering of a natural number (no sign, no padding). -/
def natToStr (n : ℕ) : Str :=
  if _h : n < 10 then [digitCh n]
  else natToStr (n / 10) ++ [digitCh (n % 10)]
decreasing_by
  exact Nat.div_lt_self (by omega) (by omega)

/-- Zero-padding on the left to width `w` (Python `{:0wd}` for a nonnegative
number already rendered as `s`). -/
def padZero (w : ℕ) (s : Str) : Str := List.replicate (w - s.length) '0' ++ s

/-- Python `f"{m:02d}"` for an integer `m`. -/
def fmtInt2 (m : ℤ) : Str :=
  if m < 0 then '-' :: padZero 1 (natToStr (-m).toNat)
  else padZero 2 (natToStr m.toNat)

/-- Python `f"{x:05.2f}"` for `0 ≤ x < 100` (the only range the program uses:
`x` is always `sec % 60`): round to hundredths, render with two integer and
two fractional digits.  Ties are rounded half-up in this model. -/
def fmtSec (x : ℚ) : Str :=
  let n := (round (100 * x)).toNat
  padZero 2 (natToStr (n / 100)) ++ '.' :: padZero 2 (natToStr (n % 100))

/-- `to_mmss` from octiCombined.py: `sec = to_seconds(ts)`,
`m = int(sec // 60)`, `s = sec % 60`, rendered `f"{m:02d}:{s:05.2f}"`.
`none` propagates a `ValueError` from `to_seconds`. -/
def to_mmss (ts : Str) : Option Str :=
  (to_seconds ts).map fun sec =>
    let m : ℤ := ⌊sec / 60⌋
    let s : ℚ := sec - 60 * m
    fmtInt2 m ++ ':' :: fmtSec s

/-! ### Timestamp pattern matchers (the `\d{2}:\d{2}(:\d{2})?\.\d+` parts of
the two line patterns in octiCombined.py) -/

/-- Consume exactly two digits (`\d{2}`). -/
def take2D : Str → Option (Str × Str)
  | a :: b :: r => if isDigitCh a && isDigitCh b then some ([a, b], r) else none
  | _ => none

/-- Consume one expected literal character. -/
def expectCh (c : Char) : Str → Option Str
  | x :: r => if x = c then some r else none
  | [] => none

/-- Consume a maximal digit run (`\d+` is greedy; the characters that may
follow it in the patterns are never digits, so greedy matching is exact). -/
def takeDigitsGreedy (s : Str) : Str × Str :=
  (s.takeWhile isDigitCh, s.dropWhile isDigitCh)

/-- Match `\d{2}:\d{2}\.\d+` at the front; returns the capture and the rest. -/
def matchTime2 (s : Str) : Option (Str × Str) :=
  match take2D s with
  | none => none
  | some (d1, r1) =>
    match expectCh ':' r1 with
    | none => none
    | some r2 =>
      match take2D r2 with
      | none => none
      | some (d2, r3) =>
        match expectCh '.' r3 with
        | none => none
        | some r4 =>
          match takeDigitsGreedy r4 with
          | (f, r5) => if f = [] then none else some (d1 ++ ':' :: d2 ++ '.' :: f, r5)

/-- Match `\d{2}:\d{2}:\d{2}\.\d+` at the front. -/
def matchTime3 (s : Str) : Option (Str × Str) :=
  match take2D s with
  | none => none
  | some (d1, r1) =>
    match expectCh ':' r1 with
    | none => none
    | some r2 =>
      match take2D r2 with
      | none => none
      | some (d2, r3) =>
        match expectCh ':' r3 with
        | none => none
        | some r4 =>
          match take2D r4 with
          | none => none
          | some (d3, r5) =>
            match expectCh '.' r5 with
            | none => none
            | some r6 =>
              match takeDigitsGreedy r6 with
              | (f, r7) =>
                if f = [] then none
                else some (d1 ++ ':' :: d2 ++ ':' :: d3 ++ '.' :: f, r7)

/-- Dialect A test: the whole string is one `HH:MM:SS.fff`-shaped timestamp
(`\\d{2}:\\d{2}:\\d{2}\\.\\d+` matching the entire string). -/
def timeA (s : Str) : Bool := decide (matchTime3 s = some (s, []))

/-- Dialect B test: the whole string is one `MM:SS.ff`-shaped timestamp. -/
def timeB (s : Str) : Bool := decide (matchTime2 s = some (s, []))

/-! ### Transcript parser (parse_file from octiCombined.py) -/

/-- Remove leading Python whitespace (used for `\\s*` in the patterns and for
each side of `str.strip()`). -/
def dropSpacesLeft : Str → Str
  | [] => []
  | c :: r => if isSpaceCh c then dropSpacesLeft r else c :: r

/-- Python `line.strip()`. -/
def stripStr (s : Str) : Str :=
  (dropSpacesLeft (dropSpacesLeft s).reverse).reverse

/-- Which worker produced a segment (`label` argument of `parse_file`;
the program only ever passes `"MIC"` and `"SPEAKER"`). -/
inductive Label
  | mic
  | speaker
deriving DecidableEq

/-- The Python label strings. -/
def labelStr : Label → Str
  | .mic => "MIC".toList
  | .speaker => "SPEAKER".toList

/-- One parsed utterance, as built by `parse_file`: the two raw captured
timestamp strings, their parsed second values, the free text, and the source
label. -/
structure Segment where
  start : Str
  end_ : Str
  start_sec : ℚ
  end_sec : ℚ
  text : Str
  label : Label
deriving DecidableEq

/-- Try pattern `p1` anchored at the current position:
`\\[(\\d{2}:\\d{2}:\\d{2}\\.\\d+)\\s*→\\s*(\\d{2}:\\d{2}:\\d{2}\\.\\d+)\\]\\s*(.*)`.
Greedy submatching is exact here because every `\\d+`/`\\s*` is followed by a
character that is not in its class. -/
def matchP1At (s : Str) : Option (Str × Str × Str) :=
  match expectCh '[' s with
  | none => none
  | some r0 =>
    match matchTime3 r0 with
    | none => none
    | some (t1, r1) =>
      match expectCh '→' (dropSpacesLeft r1) with
      | none => none
      | some r3 =>
        match matchTime3 (dropSpacesLeft r3) with
        | none => none
        | some (t2, r5) =>
          match expectCh ']' r5 with
          | none => none
          | some r6 => some (t1, t2, dropSpacesLeft r6)

/-- Try pattern `p2` (the `MM:SS.ff` dialect) anchored at the position. -/
def matchP2At (s : Str) : Option (Str × Str × Str) :=
  match expectCh '[' s with
  | none => none
  | some r0 =>
    match matchTime2 r0 with
    | none => none
    | some (t1, r1) =>
      match expectCh '→' (dropSpacesLeft r1) with
      | none => none
      | some r3 =>
        match matchTime2 (dropSpacesLeft r3) with
        | none => none
        | some (t2, r5) =>
          match expectCh ']' r5 with
          | none => none
          | some r6 => some (t1, t2, dropSpacesLeft r6)

/-- `re.search` with pattern `p1`: leftmost matching position, if any. -/
def searchP1 : Str → Option (Str × Str × Str)
  | [] => none
  | c :: t =>
    match matchP1At (c :: t) with
    | some x => some x
    | none => searchP1 t

/-- `re.search` with pattern `p2`. -/
def searchP2 : Str → Option (Str × Str × Str)
  | [] => none
  | c :: t =>
    match matchP2At (c :: t) with
    | some x => some x
    | none => searchP2 t

/-- `parse_file` from octiCombined.py, applied to the file content: for each
stripped line, try `p1` then `p2`; on a match, record the captures together
with their `to_seconds` values and the source label; other lines are skipped.
The `[]` fallbacks inside the matched branches model a `ValueError` escaping
from `to_seconds`; they are unreachable because every captured timestamp
parses (see `searchP1_captures_parse` / `searchP2_captures_parse`). -/
def parse_file (content : Str) (label : Label) : List Segment :=
  (splitOn '\n' content).flatMap fun rawLine =>
    match searchP1 (stripStr rawLine) with
    | some (s1, e1, txt) =>
      match to_seconds s1, to_seconds e1 with
      | some ss, some es => [⟨s1, e1, ss, es, txt, label⟩]
      | _, _ => []
    | none =>
      match searchP2 (stripStr rawLine) with
      | some (s1, e1, txt) =>
        match to_seconds s1, to_seconds e1 with
        | some ss, some es => [⟨s1, e1, ss, es, txt, label⟩]
        | _, _ => []
      | none => []

/-! ### Merge engine (merge_transcripts from octiCombined.py) -/

/-- Lexicographic string comparison by code point (Python `str` order),
non-strict. -/
def strLe : Str → Str → Bool
  | [], _ => true
  | _ :: _, [] => false
  | x :: xs, y :: ys => if x < y then true else if y < x then false else strLe xs ys

/-- The sort key of `combined.sort(key=lambda x: (x["start_sec"], x["end_sec"],
x["label"]))`. -/
def segKey (s : Segment) : ℚ × ℚ × Str := (s.start_sec, s.end_sec, labelStr s.label)

/-- Python tuple comparison on the sort key: floats first, label string last. -/
def keyLe : ℚ × ℚ × Str → ℚ × ℚ × Str → Bool
  | (a1, a2, a3), (b1, b2, b3) =>
    if a1 < b1 then true else if b1 < a1 then false
    else if a2 < b2 then true else if b2 < a2 then false
    else strLe a3 b3

/-- Non-strict segment comparison used by the sort. -/
def segLe (a b : Segment) : Bool := keyLe (segKey a) (segKey b)

/-- Stable insertion: the new element goes after every existing element whose
key is less than or equal to its own. -/
def stableInsert {α : Type*} (le : α → α → Bool) (a : α) : List α → List α
  | [] => [a]
  | b :: l => if le b a then b :: stableInsert le a l else a :: b :: l

/-- Stable sort by the total preorder `le`: a model of Python `list.sort`,
which is stable. -/
def stableSort {α : Type*} (le : α → α → Bool) (l : List α) : List α :=
  l.foldl (fun acc x => stableInsert le x acc) []

/-- The characters of one output line
`f"[{a} → {b}] ({lab}) {t}\n"`. -/
def lineBuild (a b lab t : Str) : Str :=
  '[' :: a ++ ' ' :: '→' :: ' ' :: b ++ ']' :: ' ' :: '(' :: lab ++ ')' :: ' ' :: t ++ ['\n']

/-- One line of the combined transcript as written by `merge_transcripts`;
`none` models a `ValueError` escaping from `to_mmss`. -/
def renderLine (seg : Segment) : Option Str :=
  match to_mmss seg.start, to_mmss seg.end_ with
  | some a, some b => some (lineBuild a b (labelStr seg.label) seg.text)
  | _, _ => none

/-- The write loop of `merge_transcripts`: one line per segment, concatenated
in order; `none` models a crash partway through. -/
def renderAll : List Segment → Option Str
  | [] => some []
  | seg :: rest =>
    match renderLine seg, renderAll rest with
    | some l, some r => some (l ++ r)
    | _, _ => none

/-- The combined-transcript bytes produced by the merge: concatenate the two
parsed lists, stable-sort by `(start_sec, end_sec, label)`, render. -/
def mergedOutput (mic spk : List Segment) : Option Str :=
  renderAll (stableSort segLe (mic ++ spk))

/-- The slice of the shared directory that `merge_transcripts` touches:
`Mic_transcript.txt`, `Speaker_transcript.txt`, `Combined_transcript.txt`
(`none` = file absent). -/
structure FS where
  mic : Option Str
  spk : Option Str
  out : Option Str
deriving DecidableEq

/-- Outcome of one `merge_transcripts` run (the summary step that follows a
successful merge is an external call, out of scope here). -/
inductive MergeResult
  | missingInputs
  | writeFailed
  | ok
deriving DecidableEq

/-- Destructive filesystem effects of `merge_transcripts`, in program order. -/
inductive MEvent
  | writeCombined
  | removeMic
  | removeSpk
deriving DecidableEq

/-- `merge_transcripts` from octiCombined.py at the filesystem level: if either
source file is missing, return immediately; otherwise parse both, sort, write
the combined file, and only then `os.remove` both sources.  `writeOk` is an
oracle for whether the combined-file write completes (`false` models an I/O
error escaping the `with open(..., "w")` block) and `leftoverOut` is whatever
partial content the failed write left behind (mode `"w"` truncates on open).
A `renderAll` failure is a crash inside the write loop and behaves like a
failed write.  The event list records the order of completed destructive
effects. -/
def merge_transcripts (fs : FS) (writeOk : Bool) (leftoverOut : Str) :
    FS × MergeResult × List MEvent :=
  match fs.mic, fs.spk with
  | some micC, some spkC =>
    match renderAll (stableSort segLe
        (parse_file micC .mic ++ parse_file spkC .speaker)) with
    | some content =>
      if writeOk then
        ({ mic := none, spk := none, out := some content }, .ok,
          [.writeCombined, .removeMic, .removeSpk])
      else
        ({ fs with out := some leftoverOut }, .writeFailed, [])
    | none => ({ fs with out := some leftoverOut }, .writeFailed, [])
  | _, _ => (fs, .missingInputs, [])

/-! ### Launcher (octiLauncher.py): presence detection, supervisor, toggle -/

/-- Python `s.lower()` (ASCII fragment; process names are ASCII). -/
def lowerStr (s : Str) : Str := s.map Char.toLower

/-- The `MEETING_APPS` table of octiLauncher.py, in its (insertion-ordered)
dict order. -/
def MEETING_APPS : List (Str × List Str) :=
  [("Zoom".toList, ["Zoom.exe".toList, "CptHost.exe".toList]),
    ("Teams".toList, ["ms-teams.exe".toList, "Teams.exe".toList]),
    ("Google Meet".toList,
      ["chrome.exe".toList, "msedge.exe".toList, "firefox.exe".toList])]

/-- The browser process names skipped by `check_meeting_running`
(already lower-case in the source). -/
def BROWSERS : List Str :=
  ["chrome.exe".toList, "msedge.exe".toList, "firefox.exe".toList]

/-- `check_meeting_running` from octiLauncher.py: over the process table
(lower-cased names), return the first configured app one of whose process
names is present — except that a raw browser name is always skipped. -/
def check_meeting_running (procs : List Str) : Option Str :=
  let running := procs.map lowerStr
  MEETING_APPS.findSome? fun app =>
    app.2.findSome? fun procName =>
      if lowerStr procName ∈ running then
        if lowerStr procName ∈ BROWSERS then none else some app.1
      else none

/-- Status reports the monitor thread emits (`update_status`/`show_bubble`
on an edge). -/
inductive MonEvent
  | entered (app : Str)
  | exited
deriving DecidableEq

/-- One iteration of the `monitor_meetings` loop body: the poll result, the
current `is_recording` flag and the current `meeting_detected` flag determine
the new detected flag and the emitted edge events.  On the rising edge the
emission is guarded only by `if root:` — and `root` is always set by the time
the monitor thread runs, since `create_gui` assigns it before starting the
thread — so it is modelled as unconditional; on the falling edge the source
guards the emission by `if root and not is_recording:`, so while a recording
is in progress the detected flag falls silently and no exited event is
emitted. -/
def monitorStep (recording detected : Bool) (procs : List Str) :
    Bool × List MonEvent :=
  match check_meeting_running procs, detected with
  | some app, false => (true, [.entered app])
  | none, true => (false, if recording then [] else [.exited])
  | _, d => (d, [])

/-- The monitor loop over a finite sequence of polls, collecting events.
Each poll carries the process table it sees and the value the global
`is_recording` flag has at that moment. -/
def monitorRun (detected : Bool) : List (List Str × Bool) → Bool × List MonEvent
  | [] => (detected, [])
  | p :: ps =>
    match monitorStep p.2 detected p.1 with
    | (d1, es) =>
      match monitorRun d1 ps with
      | (d2, rest) => (d2, es ++ rest)

/-- The two workers tracked in `recording_processes`. -/
inductive PName
  | mic
  | speaker
deriving DecidableEq

/-- Observed status of a worker process.  `terminated` covers both
`terminate()` and `kill()`: a signalled process is no longer running. -/
inductive PStatus
  | running
  | exited (code : ℤ)
  | terminated
deriving DecidableEq

/-- The launcher's global state: the `is_recording` flag and the keys of the
`recording_processes` handle table. -/
structure LState where
  is_recording : Bool
  procs : List PName
deriving DecidableEq

/-- Outcome of one `start_recording` call. -/
inductive StartOutcome
  | alreadyRecording
  | scriptsMissing
  | failed (which : PName) (code : ℤ)
  | started
deriving DecidableEq

/-- Result of `start_recording`: final launcher state, outcome, and the final
status of each worker (`none` = that worker was never spawned). -/
structure StartRes where
  state : LState
  outcome : StartOutcome
  micStatus : Option PStatus
  spkStatus : Option PStatus
deriving DecidableEq

/-- `start_recording` from octiLauncher.py.  `scriptsExist` abstracts the
`os.path.exists` checks over `SCRIPT_PATHS`; `micPoll` / `spkPoll` are the
`poll()` results at the settle check after the fixed 2-second sleep (`none` =
still running, `some c` = already exited with code `c`); a worker's status is
taken as stable between the settle poll and the immediately following re-poll
inside the failure branch. -/
def start_recording (s : LState) (scriptsExist : Bool)
    (micPoll spkPoll : Option ℤ) : StartRes :=
  if s.is_recording then ⟨s, .alreadyRecording, none, none⟩
  else if !scriptsExist then ⟨s, .scriptsMissing, none, none⟩
  else
    match micPoll with
    | some c =>
      ⟨⟨false, []⟩, .failed .mic c, some (.exited c),
        some (match spkPoll with | none => .terminated | some d => .exited d)⟩
    | none =>
      match spkPoll with
      | some c =>
        ⟨⟨false, []⟩, .failed .speaker c, some .terminated, some (.exited c)⟩
      | none => ⟨⟨true, [.mic, .speaker]⟩, .started, some .running, some .running⟩

/-- Signal-level effects of the stop sequence. -/
inductive StopEvent
  | interrupt (p : PName)
  | terminateCall (p : PName)
  | kill (p : PName)
deriving DecidableEq

/-- Per-worker resolution of the stop sequence: natural exit within the 180 s
`wait` timeout, else forced `kill()` followed by an unbounded `wait()`. -/
def stop_one (exitsInTime : Bool) (code : ℤ) : PStatus :=
  if exitsInTime then .exited code else .terminated

/-- The worker-stop phase of `stop_recording` from octiLauncher.py (signal
loop, bounded wait loop with kill escalation, then clearing
`recording_processes` and `is_recording`).  Per-worker oracles: `alive`
(`poll()` is `None` at the signal loop), `sigFails` (`send_signal` raises, so
the code falls back to `terminate()`), `exitsInTime` (`wait(180)` returns
before the timeout), `code` (the observed exit code).  That a killed process
is not running afterwards is the operating-system contract of `kill`. -/
def stop_recording (s : LState) (alive sigFails exitsInTime : PName → Bool)
    (code : PName → ℤ) : LState × List StopEvent × (PName → Option PStatus) :=
  if !s.is_recording then (s, [], fun _ => none)
  else
    ((⟨false, []⟩ : LState),
      (s.procs.filterMap fun p =>
        if alive p then
          some (if sigFails p then .terminateCall p else .interrupt p)
        else none) ++
        (s.procs.filterMap fun p =>
          if !exitsInTime p then some (.kill p) else none),
      fun p => if p ∈ s.procs then some (stop_one (exitsInTime p) (code p)) else none)

/-- The session states of §4.6, read off the status transitions of
octiLauncher.py (`Recording...`, `Stopping...`, `Processing...` = waiting for
artifacts, `Merging...`, the summary step inside the combined script,
`Complete!` / `Failed`, plus the initial idle state). -/
inductive Phase
  | idle
  | recording
  | stopping
  | waitingArtifacts
  | merging
  | summarizing
  | complete
  | failed
deriving DecidableEq

/-- The value the global `is_recording` flag holds in each phase: it is set
to `True` at the start of `start_recording` (before spawning) and reset to
`False` in `stop_recording` immediately after the worker-wait loop — i.e.
before the artifact wait, the merge and the summary steps. -/
def is_recording_flag : Phase → Bool
  | .recording => true
  | .stopping => true
  | _ => false

/-- The two calls the toggle handler can make. -/
inductive ToggleAction
  | startCall
  | stopCall
deriving DecidableEq

/-- `on_bubble_click` from octiLauncher.py: the toggle dispatches solely on
the `is_recording` flag — start when clear, stop when set.  Clicks are
dispatched whenever the Tk event loop runs, which includes the
`root.update()` calls inside the artifact-wait loop of `stop_recording`. -/
def on_bubble_click (p : Phase) : ToggleAction :=
  if is_recording_flag p then .stopCall else .startCall

/-! ### Basic lemmas about the string machinery -/

theorem splitOnAux_length (sep : Char) (s : Str) :
    ∀ acc, (splitOnAux sep s acc).length = countChar sep s + 1 := by
  induction s with
  | nil => intro acc; simp [splitOnAux, countChar]
  | cons c cs ih =>
    intro acc
    by_cases h : c = sep
    · simp [splitOnAux, h, countChar, List.countP_cons, ih]
    · simp [splitOnAux, h, countChar, List.countP_cons, ih (c :: acc)]

theorem splitOn_length (sep : Char) (s : Str) :
    (splitOn sep s).length = countChar sep s + 1 :=
  splitOnAux_length sep s []

theorem splitOnAux_no_sep (sep : Char) (s : Str) (hs : ∀ c ∈ s, c ≠ sep) :
    ∀ acc, splitOnAux sep s acc = [acc.reverse ++ s] := by
  induction s with
  | nil => intro acc; simp [splitOnAux]
  | cons c cs ih =>
    intro acc
    have hc : c ≠ sep := hs c (by simp)
    have hcs : ∀ x ∈ cs, x ≠ sep := fun x hx => hs x (by simp [hx])
    simp [splitOnAux, hc, ih hcs]

theorem splitOnAux_sep_middle (sep : Char) (a b : Str) (ha : ∀ c ∈ a, c ≠ sep) :
    ∀ acc, splitOnAux sep (a ++ sep :: b) acc =
      (acc.reverse ++ a) :: splitOnAux sep b [] := by
  induction a with
  | nil => intro acc; simp [splitOnAux]
  | cons c cs ih =>
    intro acc
    have hc : c ≠ sep := ha c (by simp)
    have hcs : ∀ x ∈ cs, x ≠ sep := fun x hx => ha x (by simp [hx])
    simp [splitOnAux, hc, ih hcs]

theorem splitOn_no_sep (sep : Char) (s : Str) (hs : ∀ c ∈ s, c ≠ sep) :
    splitOn sep s = [s] := by
  simpa using splitOnAux_no_sep sep s hs []

theorem splitOn_sep_middle (sep : Char) (a b : Str) (ha : ∀ c ∈ a, c ≠ sep)
    (hb : ∀ c ∈ b, c ≠ sep) :
    splitOn sep (a ++ sep :: b) = [a, b] := by
  have h1 := splitOnAux_sep_middle sep a b ha []
  simp only [splitOn] at *
  rw [h1, splitOnAux_no_sep sep b hb []]
  simp

theorem countChar_no_occ (c : Char) (s : Str) (h : ∀ x ∈ s, x ≠ c) :
    countChar c s = 0 := by
  simp only [countChar]
  rw [List.countP_eq_zero]
  intro a ha
  simpa using h a ha

theorem countChar_append (c : Char) (a b : Str) :
    countChar c (a ++ b) = countChar c a + countChar c b := by
  simp [countChar, List.countP_append]

/-! ### Digit rendering and parsing round-trip -/

theorem digitCh_toNat (d : ℕ) (h : d < 10) : (digitCh d).toNat = 48 + d := by
  interval_cases d <;> rfl

theorem isDigitCh_digitCh (d : ℕ) : isDigitCh (digitCh d) = true := by
  unfold digitCh
  split <;> decide

theorem isDigitCh_ne (c : Char) (h : isDigitCh c = true) :
    c ≠ ':' ∧ c ≠ '.' ∧ c ≠ '-' ∧ c ≠ '+' := by
  refine ⟨?_, ?_, ?_, ?_⟩ <;> (rintro rfl; exact absurd h (by decide))

theorem parseDigitsAux_append (a b : Str) :
    ∀ acc, parseDigitsAux acc (a ++ b) =
      match parseDigitsAux acc a with
      | some v => parseDigitsAux v b
      | none => none := by
  induction a with
  | nil => intro acc; simp [parseDigitsAux]
  | cons c cs ih =>
    intro acc
    by_cases h : isDigitCh c
    · simp [parseDigitsAux, h, ih]
    · simp [parseDigitsAux, h]

theorem natToStr_spec (n : ℕ) :
    (∀ c ∈ natToStr n, isDigitCh c = true) ∧ natToStr n ≠ [] ∧
      ∀ acc, parseDigitsAux acc (natToStr n) =
        some (acc * 10 ^ (natToStr n).length + n) := by
  induction n using Nat.strong_induction_on with
  | _ n ih =>
    by_cases h : n < 10
    · rw [natToStr, dif_pos h]
      refine ⟨by simpa using isDigitCh_digitCh n, by simp, fun acc => ?_⟩
      simp [parseDigitsAux, isDigitCh_digitCh, digitCh_toNat n h]
    · have hlt : n / 10 < n := Nat.div_lt_self (by omega) (by omega)
      obtain ⟨hd, hne, hval⟩ := ih (n / 10) hlt
      rw [natToStr, dif_neg h]
      refine ⟨?_, by simp, fun acc => ?_⟩
      · intro c hc
        rcases List.mem_append.mp hc with hc | hc
        · exact hd c hc
        · simp only [List.mem_singleton] at hc
          subst hc; exact isDigitCh_digitCh _
      · rw [parseDigitsAux_append, hval acc]
        have h10 : n % 10 < 10 := Nat.mod_lt _ (by omega)
        simp only [parseDigitsAux, isDigitCh_digitCh, if_pos,
          digitCh_toNat _ h10, List.length_append, List.length_singleton]
        have : 48 + n % 10 - 48 = n % 10 := by omega
        rw [this]
        congr 1
        have hmod := Nat.div_add_mod n 10
        ring_nf
        omega

theorem natToStr_all_digit (n : ℕ) : ∀ c ∈ natToStr n, isDigitCh c = true :=
  (natToStr_spec n).1

theorem natToStr_ne_nil (n : ℕ) : natToStr n ≠ [] :=
  (natToStr_spec n).2.1

theorem natToStr_length_le (n k : ℕ) (hk : 1 ≤ k) (h : n < 10 ^ k) :
    (natToStr n).length ≤ k := by
  induction n using Nat.strong_induction_on generalizing k with
  | _ n ih =>
    by_cases hn : n < 10
    · rw [natToStr, dif_pos hn]; simpa using hk
    · have hlt : n / 10 < n := Nat.div_lt_self (by omega) (by omega)
      have hk2 : 2 ≤ k := by
        by_contra hcon
        have : k = 1 := by omega
        subst this
        simp at h
        omega
      have hdiv : n / 10 < 10 ^ (k - 1) := by
        rw [Nat.div_lt_iff_lt_mul (by omega)]
        have : 10 ^ (k - 1) * 10 = 10 ^ k := by
          rw [← pow_succ]
          congr 1
          omega
        omega
      have := ih (n / 10) hlt (k - 1) (by omega) hdiv
      rw [natToStr, dif_neg hn]
      simp only [List.length_append, List.length_singleton]
      omega

theorem parseDigits_eq_aux (s : Str) (h : s ≠ []) :
    parseDigits s = parseDigitsAux 0 s := by
  cases s with
  | nil => exact absurd rfl h
  | cons c cs => rfl

theorem parseDigits_all_digit (s : Str) (hne : s ≠ [])
    (hd : ∀ c ∈ s, isDigitCh c = true) : ∃ n : ℕ, parseDigits s = some n := by
  rw [parseDigits_eq_aux s hne]
  clear hne
  suffices h : ∀ acc, ∃ n : ℕ, parseDigitsAux acc s = some n from h 0
  induction s with
  | nil => intro acc; exact ⟨acc, rfl⟩
  | cons c cs ih =>
    intro acc
    have hc : isDigitCh c = true := hd c (by simp)
    have hcs : ∀ x ∈ cs, isDigitCh x = true := fun x hx => hd x (by simp [hx])
    simpa [parseDigitsAux, hc] using ih hcs _

theorem parseDigitsAux_replicate_zero (k : ℕ) :
    ∀ acc, parseDigitsAux acc (List.replicate k '0') = some (acc * 10 ^ k) := by
  induction k with
  | zero => intro acc; simp [parseDigitsAux]
  | succ k ih =>
    intro acc
    have : isDigitCh '0' = true := by decide
    simp only [List.replicate_succ, parseDigitsAux, this, if_pos]
    rw [ih]
    congr 1
    have : ('0').toNat - 48 = 0 := by decide
    rw [this]
    ring

theorem parseDigits_padZero_natToStr (w n : ℕ) :
    parseDigits (padZero w (natToStr n)) = some n := by
  obtain ⟨-, hne, hval⟩ := natToStr_spec n
  have hpne : padZero w (natToStr n) ≠ [] := by
    simp [padZero, hne]
  rw [parseDigits_eq_aux _ hpne]
  unfold padZero
  rw [parseDigitsAux_append]
  rw [parseDigitsAux_replicate_zero]
  simp [hval]

theorem padZero_all_digit (w : ℕ) (s : Str) (hd : ∀ c ∈ s, isDigitCh c = true) :
    ∀ c ∈ padZero w s, isDigitCh c = true := by
  intro c hc
  rcases List.mem_append.mp hc with hc | hc
  · have := List.eq_of_mem_replicate hc
    subst this; decide
  · exact hd c hc

theorem padZero_length (w : ℕ) (s : Str) (h : s.length ≤ w) :
    (padZero w s).length = w := by
  simp [padZero]
  omega

theorem pyInt_all_digit (s : Str) (hne : s ≠ [])
    (hd : ∀ c ∈ s, isDigitCh c = true) :
    ∃ n : ℕ, pyInt s = some ((n : ℤ)) ∧ parseDigits s = some n := by
  obtain ⟨n, hn⟩ := parseDigits_all_digit s hne hd
  refine ⟨n, ?_, hn⟩
  cases s with
  | nil => exact absurd rfl hne
  | cons c cs =>
    have hc : isDigitCh c = true := hd c (by simp)
    obtain ⟨-, -, hm, hp⟩ := isDigitCh_ne c hc
    simp [pyInt, hm, hp, hn]

theorem pyInt_padZero_natToStr (w : ℕ) (m : ℕ) :
    pyInt (padZero w (natToStr m)) = some ((m : ℤ)) := by
  obtain ⟨n, hn, hparse⟩ := pyInt_all_digit (padZero w (natToStr m))
    (by simp [padZero, natToStr_ne_nil])
    (padZero_all_digit w _ (natToStr_all_digit m))
  rw [parseDigits_padZero_natToStr] at hparse
  cases hparse
  exact hn

/-! ### Parsing the canonical rendering back -/

theorem fmtSec_eq (x : ℚ) :
    fmtSec x = padZero 2 (natToStr ((round (100 * x)).toNat / 100)) ++
      '.' :: padZero 2 (natToStr ((round (100 * x)).toNat % 100)) := rfl

theorem fmtSec_all_digit_or_dot (x : ℚ) :
    ∀ c ∈ fmtSec x, isDigitCh c = true ∨ c = '.' := by
  intro c hc
  rw [fmtSec_eq] at hc
  rcases List.mem_append.mp hc with hc | hc
  · exact Or.inl (padZero_all_digit _ _ (natToStr_all_digit _) c hc)
  · rcases List.mem_cons.mp hc with hc | hc
    · exact Or.inr hc
    · exact Or.inl (padZero_all_digit _ _ (natToStr_all_digit _) c hc)

theorem fmtSec_no_colon (x : ℚ) : ∀ c ∈ fmtSec x, c ≠ ':' := by
  intro c hc
  rcases fmtSec_all_digit_or_dot x c hc with h | h
  · exact (isDigitCh_ne c h).1
  · subst h; decide

theorem pyFloat_fmtSec (x : ℚ) :
    pyFloat (fmtSec x) =
      some ((((round (100 * x)).toNat : ℕ) : ℚ) / 100) := by
  set n : ℕ := (round (100 * x)).toNat with hn
  have hA : padZero 2 (natToStr (n / 100)) ≠ [] := by
    simp [padZero, natToStr_ne_nil]
  have hAd : ∀ c ∈ padZero 2 (natToStr (n / 100)), isDigitCh c = true :=
    padZero_all_digit _ _ (natToStr_all_digit _)
  have hBd : ∀ c ∈ padZero 2 (natToStr (n % 100)), isDigitCh c = true :=
    padZero_all_digit _ _ (natToStr_all_digit _)
  have hsplit : splitOn '.' (fmtSec x) =
      [padZero 2 (natToStr (n / 100)), padZero 2 (natToStr (n % 100))] := by
    rw [fmtSec_eq]
    exact splitOn_sep_middle '.' _ _
      (fun c hc => (isDigitCh_ne c (hAd c hc)).2.1)
      (fun c hc => (isDigitCh_ne c (hBd c hc)).2.1)
  have hBlen : (padZero 2 (natToStr (n % 100))).length = 2 := by
    apply padZero_length
    exact natToStr_length_le _ 2 (by omega) (by omega)
  have hBne : padZero 2 (natToStr (n % 100)) ≠ [] := by
    simp [padZero, natToStr_ne_nil]
  have hcore : pyFloatCore (fmtSec x) =
      some (((n / 100 : ℕ) : ℚ) + ((n % 100 : ℕ) : ℚ) / 100) := by
    rw [pyFloatCore, hsplit]
    simp [hA, hBne, parseDigits_padZero_natToStr, hBlen]
    norm_num
  have hval : ((n / 100 : ℕ) : ℚ) + ((n % 100 : ℕ) : ℚ) / 100 = (n : ℚ) / 100 := by
    field_simp
    rw [mul_comm]
    exact_mod_cast Nat.div_add_mod n 100
  cases hfmt : fmtSec x with
  | nil =>
    rw [fmtSec_eq] at hfmt
    simp [padZero] at hfmt
  | cons c cs =>
    have hcmem : c ∈ fmtSec x := by rw [hfmt]; simp
    have hcdig : isDigitCh c = true := by
      rcases fmtSec_all_digit_or_dot x c hcmem with h | h
      · exact h
      · subst h
        rw [fmtSec_eq] at hfmt
        cases hcc : padZero 2 (natToStr (n / 100)) with
        | nil => exact absurd hcc hA
        | cons d ds =>
          rw [hcc] at hfmt
          simp only [List.cons_append, List.cons.injEq] at hfmt
          have : isDigitCh d = true := hAd d (by rw [hcc]; simp)
          rw [hfmt.1] at this
          exact absurd this (by decide)
    obtain ⟨-, -, hm, hp⟩ := isDigitCh_ne c hcdig
    rw [pyFloat, ← hfmt]
    rw [hfmt]
    simp only [hm, hp, if_neg, if_false]
    rw [← hfmt, hcore, hval]

theorem fmtInt2_nonneg (m : ℤ) (hm : 0 ≤ m) :
    fmtInt2 m = padZero 2 (natToStr m.toNat) := by
  rw [fmtInt2, if_neg (by omega)]

/-- Parsing the canonical `MM:SS.ff` rendering of a nonnegative number of
seconds recovers minutes times sixty plus the rounded remainder. -/
theorem to_seconds_render (q : ℚ) (hq : 0 ≤ q) :
    to_seconds (fmtInt2 ⌊q / 60⌋ ++ ':' :: fmtSec (q - 60 * ⌊q / 60⌋)) =
      some ((⌊q / 60⌋ : ℚ) * 60 +
        (((round (100 * (q - 60 * ⌊q / 60⌋))).toNat : ℕ) : ℚ) / 100) := by
  have hm : (0 : ℤ) ≤ ⌊q / 60⌋ := Int.floor_nonneg.mpr (by positivity)
  rw [fmtInt2_nonneg _ hm]
  set A : Str := padZero 2 (natToStr (⌊q / 60⌋).toNat) with hA
  set F : Str := fmtSec (q - 60 * ⌊q / 60⌋) with hF
  have hAd : ∀ c ∈ A, isDigitCh c = true :=
    padZero_all_digit _ _ (natToStr_all_digit _)
  have hAnc : ∀ c ∈ A, c ≠ ':' := fun c hc => (isDigitCh_ne c (hAd c hc)).1
  have hFnc : ∀ c ∈ F, c ≠ ':' := fmtSec_no_colon _
  have hcount : countChar ':' (A ++ ':' :: F) = 1 := by
    rw [countChar_append]
    rw [countChar_no_occ _ _ hAnc]
    simp only [countChar, List.countP_cons]
    rw [← countChar, countChar_no_occ _ _ hFnc]
    simp
  have hsplit : splitOn ':' (A ++ ':' :: F) = [A, F] :=
    splitOn_sep_middle ':' A F hAnc hFnc
  rw [to_seconds, if_neg (by omega), if_pos hcount, hsplit]
  simp only [pyInt_padZero_natToStr, pyFloat_fmtSec, hA, hF]
  congr 1
  have hcast : ((⌊q / 60⌋.toNat : ℕ) : ℚ) = ((⌊q / 60⌋ : ℤ) : ℚ) := by
    exact_mod_cast Int.toNat_of_nonneg hm
  push_cast
  rw [hcast]

/-- The rounded-to-hundredths rendering differs from the original by at most
half a hundredth. -/
theorem roundtrip_bound (q : ℚ) (hq : 0 ≤ q) :
    |((⌊q / 60⌋ : ℚ) * 60 +
        (((round (100 * (q - 60 * ⌊q / 60⌋))).toNat : ℕ) : ℚ) / 100) - q| ≤
      1 / 100 := by
  set f : ℚ := q - 60 * (⌊q / 60⌋ : ℚ) with hf
  have hfloor : ((⌊q / 60⌋ : ℤ) : ℚ) ≤ q / 60 := Int.floor_le (q / 60)
  have hf0 : 0 ≤ f := by
    rw [hf]
    nlinarith
  have hr0 : (0 : ℤ) ≤ round (100 * f) := by
    rw [round_eq]
    exact Int.floor_nonneg.mpr (by positivity)
  have hcast : (((round (100 * f)).toNat : ℕ) : ℚ) = ((round (100 * f) : ℤ) : ℚ) := by
    exact_mod_cast Int.toNat_of_nonneg hr0
  rw [hcast]
  have hkey : ((⌊q / 60⌋ : ℚ) * 60 + ((round (100 * f) : ℤ) : ℚ) / 100) - q =
      (((round (100 * f) : ℤ) : ℚ) - 100 * f) / 100 := by
    rw [hf]
    ring
  rw [hkey, abs_div]
  have h100 : |(100 : ℚ)| = 100 := by norm_num
  rw [h100]
  have habs : |((round (100 * f) : ℤ) : ℚ) - 100 * f| ≤ 1 / 2 := by
    rw [abs_sub_comm]
    exact abs_sub_round (100 * f)
  linarith

theorem take2D_spec (s d r : Str) (h : take2D s = some (d, r)) :
    ∃ a b, d = [a, b] ∧ isDigitCh a = true ∧ isDigitCh b = true ∧
      s = a :: b :: r := by
  match s with
  | [] => simp [take2D] at h
  | [a] => simp [take2D] at h
  | a :: b :: t =>
    by_cases hab : isDigitCh a && isDigitCh b
    · simp only [take2D, hab, if_pos, Option.some.injEq, Prod.mk.injEq] at h
      obtain ⟨hab1, hab2⟩ := Bool.and_eq_true_iff.mp hab
      exact ⟨a, b, h.1.symm, hab1, hab2, by rw [h.2]⟩
    · simp [take2D, hab] at h

theorem expectCh_spec (c : Char) (s r : Str) (h : expectCh c s = some r) :
    s = c :: r := by
  match s with
  | [] => simp [expectCh] at h
  | x :: t =>
    by_cases hx : x = c
    · simp only [expectCh, hx, if_pos, Option.some.injEq] at h
      rw [hx, h]
    · simp [expectCh, hx] at h

theorem takeDigitsGreedy_spec (s f r : Str) (h : takeDigitsGreedy s = (f, r)) :
    (∀ c ∈ f, isDigitCh c = true) ∧ s = f ++ r := by
  simp only [takeDigitsGreedy, Prod.mk.injEq] at h
  obtain ⟨hf, hr⟩ := h
  constructor
  · intro c hc
    rw [← hf] at hc
    exact List.mem_takeWhile_imp hc
  · rw [← hf, ← hr, List.takeWhile_append_dropWhile]

theorem splitOn_sep_middle2 (sep : Char) (a b c : Str) (ha : ∀ x ∈ a, x ≠ sep)
    (hb : ∀ x ∈ b, x ≠ sep) (hc : ∀ x ∈ c, x ≠ sep) :
    splitOn sep (a ++ sep :: (b ++ sep :: c)) = [a, b, c] := by
  have h1 := splitOnAux_sep_middle sep a (b ++ sep :: c) ha []
  simp only [splitOn] at *
  rw [h1, splitOnAux_sep_middle sep b c hb [], splitOnAux_no_sep sep c hc []]
  simp

/-- Reduction of `to_seconds` on a string with exactly one colon, splitting
into a minutes field and a seconds field. -/
theorem to_seconds_one_colon (A B : Str) (mv : ℤ) (sv : ℚ)
    (hAnc : ∀ c ∈ A, c ≠ ':') (hBnc : ∀ c ∈ B, c ≠ ':')
    (hA : pyInt A = some mv) (hB : pyFloat B = some sv) :
    to_seconds (A ++ ':' :: B) = some ((mv : ℚ) * 60 + sv) := by
  have hcount : countChar ':' (A ++ ':' :: B) = 1 := by
    rw [countChar_append, countChar_no_occ _ _ hAnc]
    simp only [countChar, List.countP_cons]
    rw [← countChar, countChar_no_occ _ _ hBnc]
    simp
  have hsplit : splitOn ':' (A ++ ':' :: B) = [A, B] :=
    splitOn_sep_middle ':' A B hAnc hBnc
  rw [to_seconds, if_neg (by omega), if_pos hcount, hsplit]
  simp [hA, hB]

/-- Reduction of `to_seconds` on a string with exactly two colons. -/
theorem to_seconds_two_colons (A B C : Str) (hv mv : ℤ) (sv : ℚ)
    (hAnc : ∀ c ∈ A, c ≠ ':') (hBnc : ∀ c ∈ B, c ≠ ':')
    (hCnc : ∀ c ∈ C, c ≠ ':')
    (hA : pyInt A = some hv) (hB : pyInt B = some mv) (hC : pyFloat C = some sv) :
    to_seconds (A ++ ':' :: (B ++ ':' :: C)) =
      some ((hv : ℚ) * 3600 + (mv : ℚ) * 60 + sv) := by
  have hcount : countChar ':' (A ++ ':' :: (B ++ ':' :: C)) = 2 := by
    rw [countChar_append, countChar_no_occ _ _ hAnc]
    simp only [countChar, List.countP_cons]
    rw [← countChar, countChar_append, countChar_no_occ _ _ hBnc]
    simp only [countChar, List.countP_cons]
    rw [← countChar, countChar_no_occ _ _ hCnc]
    simp
  have hsplit := splitOn_sep_middle2 ':' A B C hAnc hBnc hCnc
  rw [to_seconds, if_pos hcount, hsplit]
  simp [hA, hB, hC]

/-- `float()` on `digits.digits` yields a nonnegative value. -/
theorem pyFloat_digits_dot_digits (I f : Str) (hI : I ≠ [])
    (hId : ∀ c ∈ I, isDigitCh c = true) (hf : f ≠ [])
    (hfd : ∀ c ∈ f, isDigitCh c = true) :
    ∃ v : ℚ, pyFloat (I ++ '.' :: f) = some v ∧ 0 ≤ v := by
  obtain ⟨ni, hni⟩ := parseDigits_all_digit I hI hId
  obtain ⟨nf, hnf⟩ := parseDigits_all_digit f hf hfd
  have hcore : pyFloatCore (I ++ '.' :: f) =
      some ((ni : ℚ) + (nf : ℚ) / 10 ^ f.length) := by
    rw [pyFloatCore,
      splitOn_sep_middle '.' I f
        (fun c hc => (isDigitCh_ne c (hId c hc)).2.1)
        (fun c hc => (isDigitCh_ne c (hfd c hc)).2.1)]
    simp [hI, hf, hni, hnf]
  cases hIc : I with
  | nil => exact absurd hIc hI
  | cons c cs =>
    have hc : isDigitCh c = true := hId c (by rw [hIc]; simp)
    obtain ⟨-, -, hm, hp⟩ := isDigitCh_ne c hc
    refine ⟨(ni : ℚ) + (nf : ℚ) / 10 ^ f.length, ?_, by positivity⟩
    rw [← hIc]
    have hne : I ++ '.' :: f = c :: (cs ++ '.' :: f) := by rw [hIc]; simp
    rw [hne, pyFloat]
    simp only [hm, hp, if_neg, if_false]
    rw [← hne, hcore]

/-- A successful `\d{2}:\d{2}\.\d+` capture parses to a nonnegative number of
seconds. -/
theorem matchTime2_to_seconds (s ts r : Str) (h : matchTime2 s = some (ts, r)) :
    ∃ q, to_seconds ts = some q ∧ 0 ≤ q := by
  rw [matchTime2] at h
  cases h1 : take2D s with
  | none => rw [h1] at h; simp at h
  | some p1 =>
  obtain ⟨d1, r1⟩ := p1
  simp only [h1] at h
  cases h2 : expectCh ':' r1 with
  | none => rw [h2] at h; simp at h
  | some r2 =>
  simp only [h2] at h
  cases h3 : take2D r2 with
  | none => rw [h3] at h; simp at h
  | some p2 =>
  obtain ⟨d2, r3⟩ := p2
  simp only [h3] at h
  cases h4 : expectCh '.' r3 with
  | none => rw [h4] at h; simp at h
  | some r4 =>
  simp only [h4] at h
  cases h5 : takeDigitsGreedy r4 with
  | mk f r5 =>
  simp only [h5] at h
  by_cases hfe : f = []
  · rw [if_pos hfe] at h; simp at h
  · rw [if_neg hfe] at h
    simp only [Option.some.injEq, Prod.mk.injEq] at h
    obtain ⟨hts, hr⟩ := h
    obtain ⟨a, b, hd1, ha, hb, -⟩ := take2D_spec s d1 r1 h1
    obtain ⟨c, d, hd2, hc, hd, -⟩ := take2D_spec r2 d2 r3 h3
    obtain ⟨hfd, -⟩ := takeDigitsGreedy_spec r4 f r5 h5
    have hd1d : ∀ x ∈ d1, isDigitCh x = true := by
      intro x hx; rw [hd1] at hx
      simp only [List.mem_cons, List.not_mem_nil, or_false] at hx
      rcases hx with rfl | rfl
      · exact ha
      · exact hb
    have hd2d : ∀ x ∈ d2, isDigitCh x = true := by
      intro x hx; rw [hd2] at hx
      simp only [List.mem_cons, List.not_mem_nil, or_false] at hx
      rcases hx with rfl | rfl
      · exact hc
      · exact hd
    have hd1ne : d1 ≠ [] := by rw [hd1]; simp
    have hd2ne : d2 ≠ [] := by rw [hd2]; simp
    obtain ⟨n1, hn1, -⟩ := pyInt_all_digit d1 hd1ne hd1d
    obtain ⟨v, hv, hv0⟩ := pyFloat_digits_dot_digits d2 f hd2ne hd2d hfe hfd
    have hassoc : ts = d1 ++ ':' :: (d2 ++ '.' :: f) := by
      rw [← hts]; simp
    refine ⟨(n1 : ℚ) * 60 + v, ?_, by positivity⟩
    rw [hassoc]
    refine to_seconds_one_colon d1 (d2 ++ '.' :: f) (n1 : ℤ) v ?_ ?_ hn1 hv
    · exact fun x hx => (isDigitCh_ne x (hd1d x hx)).1
    · intro x hx
      rcases List.mem_append.mp hx with hx | hx
      · exact (isDigitCh_ne x (hd2d x hx)).1
      · rcases List.mem_cons.mp hx with hx | hx
        · subst hx; decide
        · exact (isDigitCh_ne x (hfd x hx)).1

/-- A successful `\d{2}:\d{2}:\d{2}\.\d+` capture parses to a nonnegative
number of seconds. -/
theorem matchTime3_to_seconds (s ts r : Str) (h : matchTime3 s = some (ts, r)) :
    ∃ q, to_seconds ts = some q ∧ 0 ≤ q := by
  rw [matchTime3] at h
  cases h1 : take2D s with
  | none => rw [h1] at h; simp at h
  | some p1 =>
  obtain ⟨d1, r1⟩ := p1
  simp only [h1] at h
  cases h2 : expectCh ':' r1 with
  | none => rw [h2] at h; simp at h
  | some r2 =>
  simp only [h2] at h
  cases h3 : take2D r2 with
  | none => rw [h3] at h; simp at h
  | some p2 =>
  obtain ⟨d2, r3⟩ := p2
  simp only [h3] at h
  cases h4 : expectCh ':' r3 with
  | none => rw [h4] at h; simp at h
  | some r4 =>
  simp only [h4] at h
  cases h5 : take2D r4 with
  | none => rw [h5] at h; simp at h
  | some p3 =>
  obtain ⟨d3, r5⟩ := p3
  simp only [h5] at h
  cases h6 : expectCh '.' r5 with
  | none => rw [h6] at h; simp at h
  | some r6 =>
  simp only [h6] at h
  cases h7 : takeDigitsGreedy r6 with
  | mk f r7 =>
  simp only [h7] at h
  by_cases hfe : f = []
  · rw [if_pos hfe] at h; simp at h
  · rw [if_neg hfe] at h
    simp only [Option.some.injEq, Prod.mk.injEq] at h
    obtain ⟨hts, hr⟩ := h
    obtain ⟨a, b, hd1, ha, hb, -⟩ := take2D_spec s d1 r1 h1
    obtain ⟨c, d, hd2, hc, hd, -⟩ := take2D_spec r2 d2 r3 h3
    obtain ⟨e, g, hd3, he, hg, -⟩ := take2D_spec r4 d3 r5 h5
    obtain ⟨hfd, -⟩ := takeDigitsGreedy_spec r6 f r7 h7
    have hd1d : ∀ x ∈ d1, isDigitCh x = true := by
      intro x hx; rw [hd1] at hx
      simp only [List.mem_cons, List.not_mem_nil, or_false] at hx
      rcases hx with rfl | rfl
      · exact ha
      · exact hb
    have hd2d : ∀ x ∈ d2, isDigitCh x = true := by
      intro x hx; rw [hd2] at hx
      simp only [List.mem_cons, List.not_mem_nil, or_false] at hx
      rcases hx with rfl | rfl
      · exact hc
      · exact hd
    have hd3d : ∀ x ∈ d3, isDigitCh x = true := by
      intro x hx; rw [hd3] at hx
      simp only [List.mem_cons, List.not_mem_nil, or_false] at hx
      rcases hx with rfl | rfl
      · exact he
      · exact hg
    have hd1ne : d1 ≠ [] := by rw [hd1]; simp
    have hd2ne : d2 ≠ [] := by rw [hd2]; simp
    have hd3ne : d3 ≠ [] := by rw [hd3]; simp
    obtain ⟨n1, hn1, -⟩ := pyInt_all_digit d1 hd1ne hd1d
    obtain ⟨n2, hn2, -⟩ := pyInt_all_digit d2 hd2ne hd2d
    obtain ⟨v, hv, hv0⟩ := pyFloat_digits_dot_digits d3 f hd3ne hd3d hfe hfd
    have hassoc : ts = d1 ++ ':' :: (d2 ++ ':' :: (d3 ++ '.' :: f)) := by
      rw [← hts]; simp
    refine ⟨(n1 : ℚ) * 3600 + (n2 : ℚ) * 60 + v, ?_, by positivity⟩
    rw [hassoc]
    refine to_seconds_two_colons d1 d2 (d3 ++ '.' :: f) (n1 : ℤ) (n2 : ℤ) v
      ?_ ?_ ?_ hn1 hn2 hv
    · exact fun x hx => (isDigitCh_ne x (hd1d x hx)).1
    · exact fun x hx => (isDigitCh_ne x (hd2d x hx)).1
    · intro x hx
      rcases List.mem_append.mp hx with hx | hx
      · exact (isDigitCh_ne x (hd3d x hx)).1
      · rcases List.mem_cons.mp hx with hx | hx
        · subst hx; decide
        · exact (isDigitCh_ne x (hfd x hx)).1

/-! ### C4: dialect disambiguation by counting colons -/

/-- C4: `to_seconds` disambiguates by the number of `:` separators.  With
exactly two separators (and numeric components, i.e. the conversions that
Python would apply do not raise) it returns `h*3600 + m*60 + s`; with exactly
one separator it returns `m*60 + s`; with any other separator count it
returns `0.0` unconditionally — it never raises there. -/
theorem C4_to_seconds_dialects (ts : Str) :
    (∀ hh mm ss hv mv sv, countChar ':' ts = 2 → splitOn ':' ts = [hh, mm, ss] →
        pyInt hh = some hv → pyInt mm = some mv → pyFloat ss = some sv →
        to_seconds ts = some ((hv : ℚ) * 3600 + (mv : ℚ) * 60 + sv)) ∧
    (∀ mm ss mv sv, countChar ':' ts = 1 → splitOn ':' ts = [mm, ss] →
        pyInt mm = some mv → pyFloat ss = some sv →
        to_seconds ts = some ((mv : ℚ) * 60 + sv)) ∧
    (countChar ':' ts ≠ 2 → countChar ':' ts ≠ 1 → to_seconds ts = some 0) := by
  refine ⟨?_, ?_, ?_⟩
  · intro hh mm ss hv mv sv hcount hsplit hH hM hS
    simp [to_seconds, hcount, hsplit, hH, hM, hS]
  · intro mm ss mv sv hcount hsplit hM hS
    simp [to_seconds, hcount, hsplit, hM, hS]
  · intro h2 h1
    simp [to_seconds, h2, h1]

/-- Witness for `to_seconds_dialects`: concrete strings in each of the three
separator classes. -/
theorem C4_to_seconds_dialects_witness :
    to_seconds "01:02:03.5".toList =
      some ((1 : ℚ) * 3600 + (2 : ℚ) * 60 + (((3 : ℕ) : ℚ) + ((5 : ℕ) : ℚ) / 10 ^ 1)) ∧
    to_seconds "02:03.5".toList =
      some ((2 : ℚ) * 60 + (((3 : ℕ) : ℚ) + ((5 : ℕ) : ℚ) / 10 ^ 1)) ∧
    to_seconds "nocolons".toList = some 0 := by
  refine ⟨?_, ?_, ?_⟩
  · exact (C4_to_seconds_dialects "01:02:03.5".toList).1
      "01".toList "02".toList "03.5".toList 1 2
      (((3 : ℕ) : ℚ) + ((5 : ℕ) : ℚ) / 10 ^ 1)
      (by decide) (by decide) rfl rfl rfl
  · exact (C4_to_seconds_dialects "02:03.5".toList).2.1
      "02".toList "03.5".toList 2
      (((3 : ℕ) : ℚ) + ((5 : ℕ) : ℚ) / 10 ^ 1)
      (by decide) (by decide) rfl rfl
  · exact (C4_to_seconds_dialects "nocolons".toList).2.2 (by decide) (by decide)

/-! ### C1: timestamp round-trip -/

/-- C1: for every valid input timestamp string (dialect A `HH:MM:SS.fff` or
dialect B `MM:SS.ff`), parsing, rendering to the canonical `MM:SS.ff` form and
re-parsing agrees with the original parse to within one hundredth of a second:
`|to_seconds(to_mmss(s)) - to_seconds(s)| ≤ 0.01`. -/
theorem C1_timestamp_roundtrip (ts : Str) (h : timeA ts = true ∨ timeB ts = true) :
    ∃ q r q', to_seconds ts = some q ∧ to_mmss ts = some r ∧
      to_seconds r = some q' ∧ |q' - q| ≤ 1 / 100 := by
  have hsome : ∃ q, to_seconds ts = some q ∧ 0 ≤ q := by
    rcases h with h | h
    · exact matchTime3_to_seconds ts ts [] (of_decide_eq_true h)
    · exact matchTime2_to_seconds ts ts [] (of_decide_eq_true h)
  obtain ⟨q, hq, hq0⟩ := hsome
  refine ⟨q, _, _, hq, ?_, to_seconds_render q hq0, roundtrip_bound q hq0⟩
  rw [to_mmss, hq]
  rfl

/-- Witness for C1 at the dialect-A input `00:00:18.500`. -/
theorem C1_timestamp_roundtrip_witness :
    (timeA "00:00:18.500".toList = true ∨ timeB "00:00:18.500".toList = true) ∧
    ∃ q r q', to_seconds "00:00:18.500".toList = some q ∧
      to_mmss "00:00:18.500".toList = some r ∧
      to_seconds r = some q' ∧ |q' - q| ≤ 1 / 100 :=
  ⟨Or.inl (by decide), C1_timestamp_roundtrip _ (Or.inl (by decide))⟩

/-! ### C5: segments produced by the parser -/

theorem matchP1At_spec (s t1 t2 txt : Str) (h : matchP1At s = some (t1, t2, txt)) :
    (∃ u r, matchTime3 u = some (t1, r)) ∧ ∃ u r, matchTime3 u = some (t2, r) := by
  rw [matchP1At] at h
  cases h1 : expectCh '[' s with
  | none => rw [h1] at h; simp at h
  | some r0 =>
  simp only [h1] at h
  cases h2 : matchTime3 r0 with
  | none => rw [h2] at h; simp at h
  | some p1 =>
  obtain ⟨t1x, r1⟩ := p1
  simp only [h2] at h
  cases h3 : expectCh '→' (dropSpacesLeft r1) with
  | none => rw [h3] at h; simp at h
  | some r3 =>
  simp only [h3] at h
  cases h4 : matchTime3 (dropSpacesLeft r3) with
  | none => rw [h4] at h; simp at h
  | some p2 =>
  obtain ⟨t2x, r5⟩ := p2
  simp only [h4] at h
  cases h5 : expectCh ']' r5 with
  | none => rw [h5] at h; simp at h
  | some r6 =>
  simp only [h5, Option.some.injEq, Prod.mk.injEq] at h
  obtain ⟨ht1, ht2, -⟩ := h
  subst ht1; subst ht2
  exact ⟨⟨r0, r1, h2⟩, ⟨dropSpacesLeft r3, r5, h4⟩⟩

theorem matchP2At_spec (s t1 t2 txt : Str) (h : matchP2At s = some (t1, t2, txt)) :
    (∃ u r, matchTime2 u = some (t1, r)) ∧ ∃ u r, matchTime2 u = some (t2, r) := by
  rw [matchP2At] at h
  cases h1 : expectCh '[' s with
  | none => rw [h1] at h; simp at h
  | some r0 =>
  simp only [h1] at h
  cases h2 : matchTime2 r0 with
  | none => rw [h2] at h; simp at h
  | some p1 =>
  obtain ⟨t1x, r1⟩ := p1
  simp only [h2] at h
  cases h3 : expectCh '→' (dropSpacesLeft r1) with
  | none => rw [h3] at h; simp at h
  | some r3 =>
  simp only [h3] at h
  cases h4 : matchTime2 (dropSpacesLeft r3) with
  | none => rw [h4] at h; simp at h
  | some p2 =>
  obtain ⟨t2x, r5⟩ := p2
  simp only [h4] at h
  cases h5 : expectCh ']' r5 with
  | none => rw [h5] at h; simp at h
  | some r6 =>
  simp only [h5, Option.some.injEq, Prod.mk.injEq] at h
  obtain ⟨ht1, ht2, -⟩ := h
  subst ht1; subst ht2
  exact ⟨⟨r0, r1, h2⟩, ⟨dropSpacesLeft r3, r5, h4⟩⟩

/-- Both timestamps captured by a `p1` search parse to nonnegative seconds
(in particular `to_seconds` cannot raise on them). -/
theorem searchP1_captures_parse (s t1 t2 txt : Str)
    (h : searchP1 s = some (t1, t2, txt)) :
    (∃ q, to_seconds t1 = some q ∧ 0 ≤ q) ∧
      ∃ q, to_seconds t2 = some q ∧ 0 ≤ q := by
  induction s with
  | nil => simp [searchP1] at h
  | cons c t ih =>
    simp only [searchP1] at h
    cases hm : matchP1At (c :: t) with
    | some x =>
      rw [hm] at h
      simp only [Option.some.injEq] at h
      subst h
      obtain ⟨⟨u, r, hu⟩, u', r', hu'⟩ := matchP1At_spec _ _ _ _ hm
      exact ⟨matchTime3_to_seconds u t1 r hu, matchTime3_to_seconds u' t2 r' hu'⟩
    | none =>
      rw [hm] at h
      exact ih h

/-- Both timestamps captured by a `p2` search parse to nonnegative seconds. -/
theorem searchP2_captures_parse (s t1 t2 txt : Str)
    (h : searchP2 s = some (t1, t2, txt)) :
    (∃ q, to_seconds t1 = some q ∧ 0 ≤ q) ∧
      ∃ q, to_seconds t2 = some q ∧ 0 ≤ q := by
  induction s with
  | nil => simp [searchP2] at h
  | cons c t ih =>
    simp only [searchP2] at h
    cases hm : matchP2At (c :: t) with
    | some x =>
      rw [hm] at h
      simp only [Option.some.injEq] at h
      subst h
      obtain ⟨⟨u, r, hu⟩, u', r', hu'⟩ := matchP2At_spec _ _ _ _ hm
      exact ⟨matchTime2_to_seconds u t1 r hu, matchTime2_to_seconds u' t2 r' hu'⟩
    | none =>
      rw [hm] at h
      exact ih h

/-- C5 (amended): every Segment produced by `parse_file` — for every input
file content and every line matching either dialect pattern — has
`start_sec ≥ 0` and `end_sec ≥ 0`.  (The claimed `end ≥ start` does not hold:
the parser performs no such check; see `C5_counterexample`.) -/
theorem C5_parse_file_nonneg (content : Str) (label : Label) (seg : Segment)
    (h : seg ∈ parse_file content label) :
    0 ≤ seg.start_sec ∧ 0 ≤ seg.end_sec := by
  rw [parse_file] at h
  rw [List.mem_flatMap] at h
  obtain ⟨rawLine, -, hseg⟩ := h
  cases h1 : searchP1 (stripStr rawLine) with
  | some x =>
    obtain ⟨s1, e1, txt⟩ := x
    simp only [h1] at hseg
    obtain ⟨⟨qs, hqs, hqs0⟩, qe, hqe, hqe0⟩ := searchP1_captures_parse _ _ _ _ h1
    simp only [hqs, hqe, List.mem_singleton] at hseg
    subst hseg
    exact ⟨hqs0, hqe0⟩
  | none =>
    simp only [h1] at hseg
    cases h2 : searchP2 (stripStr rawLine) with
    | some x =>
      obtain ⟨s1, e1, txt⟩ := x
      simp only [h2] at hseg
      obtain ⟨⟨qs, hqs, hqs0⟩, qe, hqe, hqe0⟩ := searchP2_captures_parse _ _ _ _ h2
      simp only [hqs, hqe, List.mem_singleton] at hseg
      subst hseg
      exact ⟨hqs0, hqe0⟩
    | none =>
      rw [h2] at hseg
      simp at hseg

/-- Witness for C5 on a well-formed dialect-B line. -/
theorem C5_parse_file_nonneg_witness :
    ((⟨"00:06.0".toList, "00:10.0".toList,
        (((0 : ℕ) : ℤ) : ℚ) * 60 + (((6 : ℕ) : ℚ) + ((0 : ℕ) : ℚ) / 10 ^ 1),
        (((0 : ℕ) : ℤ) : ℚ) * 60 + (((10 : ℕ) : ℚ) + ((0 : ℕ) : ℚ) / 10 ^ 1),
        "ok".toList, Label.speaker⟩ : Segment) ∈
      parse_file "[00:06.0 → 00:10.0] ok".toList Label.speaker) ∧
    (0 ≤ (((0 : ℕ) : ℤ) : ℚ) * 60 + (((6 : ℕ) : ℚ) + ((0 : ℕ) : ℚ) / 10 ^ 1) ∧
      0 ≤ (((0 : ℕ) : ℤ) : ℚ) * 60 + (((10 : ℕ) : ℚ) + ((0 : ℕ) : ℚ) / 10 ^ 1)) := by
  have he : parse_file "[00:06.0 → 00:10.0] ok".toList Label.speaker =
      [⟨"00:06.0".toList, "00:10.0".toList,
        (((0 : ℕ) : ℤ) : ℚ) * 60 + (((6 : ℕ) : ℚ) + ((0 : ℕ) : ℚ) / 10 ^ 1),
        (((0 : ℕ) : ℤ) : ℚ) * 60 + (((10 : ℕ) : ℚ) + ((0 : ℕ) : ℚ) / 10 ^ 1),
        "ok".toList, Label.speaker⟩] := rfl
  have hm : (⟨"00:06.0".toList, "00:10.0".toList,
      (((0 : ℕ) : ℤ) : ℚ) * 60 + (((6 : ℕ) : ℚ) + ((0 : ℕ) : ℚ) / 10 ^ 1),
      (((0 : ℕ) : ℤ) : ℚ) * 60 + (((10 : ℕ) : ℚ) + ((0 : ℕ) : ℚ) / 10 ^ 1),
      "ok".toList, Label.speaker⟩ : Segment) ∈
      parse_file "[00:06.0 → 00:10.0] ok".toList Label.speaker := by
    rw [he]
    exact List.mem_singleton.mpr rfl
  exact ⟨hm, C5_parse_file_nonneg _ _ _ hm⟩

/-- C5 counterexample: on the line `[00:10.0 → 00:05.0] x` the parser produces
a segment whose end (5 seconds) precedes its start (10 seconds), refuting the
claimed invariant `end ≥ start`. -/
theorem C5_counterexample :
    parse_file "[00:10.0 → 00:05.0] x".toList Label.mic =
      [⟨"00:10.0".toList, "00:05.0".toList,
        (((0 : ℕ) : ℤ) : ℚ) * 60 + (((10 : ℕ) : ℚ) + ((0 : ℕ) : ℚ) / 10 ^ 1),
        (((0 : ℕ) : ℤ) : ℚ) * 60 + (((5 : ℕ) : ℚ) + ((0 : ℕ) : ℚ) / 10 ^ 1),
        "x".toList, Label.mic⟩] ∧
    ¬ ((((0 : ℕ) : ℤ) : ℚ) * 60 + (((10 : ℕ) : ℚ) + ((0 : ℕ) : ℚ) / 10 ^ 1) ≤
        (((0 : ℕ) : ℤ) : ℚ) * 60 + (((5 : ℕ) : ℚ) + ((0 : ℕ) : ℚ) / 10 ^ 1)) :=
  ⟨rfl, by norm_num⟩

/-! ### C2: merge determinism -/

theorem strLe_total (a b : Str) : strLe a b = true ∨ strLe b a = true := by
  induction a generalizing b with
  | nil => left; rfl
  | cons x xs ih =>
    cases b with
    | nil => right; rfl
    | cons y ys =>
      rcases lt_trichotomy x y with h | h | h
      · left; simp [strLe, h]
      · subst h
        rcases ih ys with h | h
        · left; simp [strLe, lt_self_iff_false, h]
        · right; simp [strLe, lt_self_iff_false, h]
      · right; simp [strLe, h]

theorem strLe_trans (a b c : Str) (h1 : strLe a b = true) (h2 : strLe b c = true) :
    strLe a c = true := by
  induction a generalizing b c with
  | nil => rfl
  | cons x xs ih =>
    cases b with
    | nil => exact absurd h1 (by simp [strLe])
    | cons y ys =>
      cases c with
      | nil => exact absurd h2 (by simp [strLe])
      | cons z zs =>
        rcases lt_trichotomy x y with hxy | hxy | hxy
        · rcases lt_trichotomy y z with hyz | hyz | hyz
          · simp [strLe, lt_trans hxy hyz]
          · subst hyz; simp [strLe, hxy]
          · rw [strLe, if_neg (asymm hyz), if_pos hyz] at h2
            exact absurd h2 (by simp)
        · subst hxy
          simp only [strLe, lt_self_iff_false, if_false] at h1
          rcases lt_trichotomy x z with hyz | hyz | hyz
          · simp [strLe, hyz]
          · subst hyz
            simp only [strLe, lt_self_iff_false, if_false] at h2 ⊢
            exact ih ys zs h1 h2
          · rw [strLe, if_neg (asymm hyz), if_pos hyz] at h2
            exact absurd h2 (by simp)
        · rw [strLe, if_neg (asymm hxy), if_pos hxy] at h1
          exact absurd h1 (by simp)

theorem strLe_antisymm (a b : Str) (h1 : strLe a b = true) (h2 : strLe b a = true) :
    a = b := by
  induction a generalizing b with
  | nil =>
    cases b with
    | nil => rfl
    | cons y ys => exact absurd h2 (by simp [strLe])
  | cons x xs ih =>
    cases b with
    | nil => exact absurd h1 (by simp [strLe])
    | cons y ys =>
      rcases lt_trichotomy x y with hxy | hxy | hxy
      · rw [strLe, if_neg (asymm hxy), if_pos hxy] at h2
        exact absurd h2 (by simp)
      · subst hxy
        simp only [strLe, lt_self_iff_false, if_false] at h1 h2
        rw [ih ys h1 h2]
      · rw [strLe, if_neg (asymm hxy), if_pos hxy] at h1
        exact absurd h1 (by simp)

theorem keyLe_total (k1 k2 : ℚ × ℚ × Str) : keyLe k1 k2 = true ∨ keyLe k2 k1 = true := by
  obtain ⟨a1, a2, a3⟩ := k1
  obtain ⟨b1, b2, b3⟩ := k2
  rcases lt_trichotomy a1 b1 with h1 | h1 | h1
  · left; simp [keyLe, h1]
  · subst h1
    rcases lt_trichotomy a2 b2 with h2 | h2 | h2
    · left; simp [keyLe, lt_self_iff_false, h2]
    · subst h2
      rcases strLe_total a3 b3 with h3 | h3
      · left; simp [keyLe, lt_self_iff_false, h3]
      · right; simp [keyLe, lt_self_iff_false, h3]
    · right; simp [keyLe, lt_self_iff_false, h2]
  · right; simp [keyLe, h1]

theorem keyLe_trans (k1 k2 k3 : ℚ × ℚ × Str) (h1 : keyLe k1 k2 = true)
    (h2 : keyLe k2 k3 = true) : keyLe k1 k3 = true := by
  obtain ⟨a1, a2, a3⟩ := k1
  obtain ⟨b1, b2, b3⟩ := k2
  obtain ⟨c1, c2, c3⟩ := k3
  simp only [keyLe] at h1 h2 ⊢
  rcases lt_trichotomy a1 b1 with hab | hab | hab <;>
    rcases lt_trichotomy b1 c1 with hbc | hbc | hbc
  · simp [lt_trans hab hbc]
  · subst hbc; simp [hab]
  · rw [if_neg (asymm hbc), if_pos hbc] at h2; exact absurd h2 (by simp)
  · subst hab; simp [hbc]
  · subst hab; subst hbc
    simp only [lt_self_iff_false, if_false] at h1 h2 ⊢
    rcases lt_trichotomy a2 b2 with hab2 | hab2 | hab2 <;>
      rcases lt_trichotomy b2 c2 with hbc2 | hbc2 | hbc2
    · simp [lt_trans hab2 hbc2]
    · subst hbc2; simp [hab2]
    · rw [if_neg (asymm hbc2), if_pos hbc2] at h2; exact absurd h2 (by simp)
    · subst hab2; simp [hbc2]
    · subst hab2; subst hbc2
      simp only [lt_self_iff_false, if_false] at h1 h2 ⊢
      exact strLe_trans _ _ _ h1 h2
    · subst hab2
      rw [if_neg (asymm hbc2), if_pos hbc2] at h2; exact absurd h2 (by simp)
    · rw [if_neg (asymm hab2), if_pos hab2] at h1; exact absurd h1 (by simp)
    · rw [if_neg (asymm hab2), if_pos hab2] at h1; exact absurd h1 (by simp)
    · rw [if_neg (asymm hab2), if_pos hab2] at h1; exact absurd h1 (by simp)
  · subst hab
    rw [if_neg (asymm hbc), if_pos hbc] at h2; exact absurd h2 (by simp)
  · rw [if_neg (asymm hab), if_pos hab] at h1; exact absurd h1 (by simp)
  · rw [if_neg (asymm hab), if_pos hab] at h1; exact absurd h1 (by simp)
  · rw [if_neg (asymm hab), if_pos hab] at h1; exact absurd h1 (by simp)

theorem keyLe_antisymm (k1 k2 : ℚ × ℚ × Str) (h1 : keyLe k1 k2 = true)
    (h2 : keyLe k2 k1 = true) : k1 = k2 := by
  obtain ⟨a1, a2, a3⟩ := k1
  obtain ⟨b1, b2, b3⟩ := k2
  simp only [keyLe] at h1 h2
  rcases lt_trichotomy a1 b1 with hab | hab | hab
  · rw [if_neg (asymm hab), if_pos hab] at h2; exact absurd h2 (by simp)
  · subst hab
    simp only [lt_self_iff_false, if_false] at h1 h2
    rcases lt_trichotomy a2 b2 with hab2 | hab2 | hab2
    · rw [if_neg (asymm hab2), if_pos hab2] at h2; exact absurd h2 (by simp)
    · subst hab2
      simp only [lt_self_iff_false, if_false] at h1 h2
      rw [strLe_antisymm _ _ h1 h2]
    · rw [if_neg (asymm hab2), if_pos hab2] at h1; exact absurd h1 (by simp)
  · rw [if_neg (asymm hab), if_pos hab] at h1; exact absurd h1 (by simp)

theorem segLe_total (a b : Segment) : segLe a b = true ∨ segLe b a = true :=
  keyLe_total _ _

theorem segLe_trans (a b c : Segment) (h1 : segLe a b = true)
    (h2 : segLe b c = true) : segLe a c = true :=
  keyLe_trans _ _ _ h1 h2

theorem segLe_antisymm_key (a b : Segment) (h1 : segLe a b = true)
    (h2 : segLe b a = true) : segKey a = segKey b :=
  keyLe_antisymm _ _ h1 h2

theorem stableInsert_perm {α : Type*} (le : α → α → Bool) (a : α) (l : List α) :
    (stableInsert le a l).Perm (a :: l) := by
  induction l with
  | nil => simp [stableInsert]
  | cons b t ih =>
    by_cases h : le b a
    · rw [stableInsert, if_pos h]
      exact (ih.cons b).trans (List.Perm.swap a b t)
    · rw [stableInsert, if_neg h]

theorem stableSort_foldl_perm {α : Type*} (le : α → α → Bool) (l : List α) :
    ∀ acc, (List.foldl (fun acc x => stableInsert le x acc) acc l).Perm (acc ++ l) := by
  induction l with
  | nil => intro acc; simp
  | cons x t ih =>
    intro acc
    rw [List.foldl_cons]
    refine (ih (stableInsert le x acc)).trans ?_
    refine (List.Perm.append_right t (stableInsert_perm le x acc)).trans ?_
    exact List.perm_middle.symm

theorem stableSort_perm {α : Type*} (le : α → α → Bool) (l : List α) :
    (stableSort le l).Perm l := by
  simpa using stableSort_foldl_perm le l []

theorem mem_stableInsert {α : Type*} (le : α → α → Bool) (a x : α) (l : List α) :
    x ∈ stableInsert le a l ↔ x = a ∨ x ∈ l := by
  rw [(stableInsert_perm le a l).mem_iff, List.mem_cons]

theorem stableInsert_pairwise {α : Type*} (le : α → α → Bool)
    (htot : ∀ a b, le a b = true ∨ le b a = true)
    (htrans : ∀ a b c, le a b = true → le b c = true → le a c = true)
    (a : α) (l : List α) (hl : l.Pairwise (fun x y => le x y = true)) :
    (stableInsert le a l).Pairwise (fun x y => le x y = true) := by
  induction l with
  | nil => simp [stableInsert]
  | cons b t ih =>
    obtain ⟨hbt, htp⟩ := List.pairwise_cons.mp hl
    by_cases h : le b a
    · rw [stableInsert, if_pos h]
      rw [List.pairwise_cons]
      constructor
      · intro y hy
        rcases (mem_stableInsert le a y t).mp hy with rfl | hy
        · exact h
        · exact hbt y hy
      · exact ih htp
    · rw [stableInsert, if_neg h]
      rw [List.pairwise_cons]
      constructor
      · intro y hy
        rcases List.mem_cons.mp hy with rfl | hy
        · rcases htot a y with ha | ha
          · exact ha
          · exact absurd ha h
        · have hab : le a b = true := by
            rcases htot a b with ha | ha
            · exact ha
            · exact absurd ha h
          exact htrans a b y hab (hbt y hy)
      · exact hl

theorem stableSort_pairwise {α : Type*} (le : α → α → Bool)
    (htot : ∀ a b, le a b = true ∨ le b a = true)
    (htrans : ∀ a b c, le a b = true → le b c = true → le a c = true)
    (l : List α) :
    (stableSort le l).Pairwise (fun x y => le x y = true) := by
  suffices h : ∀ acc, acc.Pairwise (fun x y => le x y = true) →
      (List.foldl (fun acc x => stableInsert le x acc) acc l).Pairwise
        (fun x y => le x y = true) from h [] (by simp)
  induction l with
  | nil => intro acc hacc; simpa using hacc
  | cons x t ih =>
    intro acc hacc
    rw [List.foldl_cons]
    exact ih _ (stableInsert_pairwise le htot htrans x acc hacc)

/-- Two sorted lists that are permutations of each other and whose elements
have pairwise-distinguishing keys are equal. -/
theorem sorted_unique {α : Type*} (le : α → α → Bool) :
    ∀ (l1 l2 : List α), l1.Perm l2 →
      l1.Pairwise (fun x y => le x y = true) →
      l2.Pairwise (fun x y => le x y = true) →
      (∀ a ∈ l1, ∀ b ∈ l1, le a b = true → le b a = true → a = b) →
      l1 = l2 := by
  intro l1
  induction l1 with
  | nil => intro l2 hp _ _ _; exact (hp.nil_eq).symm ▸ rfl
  | cons a t1 ih =>
    intro l2 hp h1 h2 hanti
    cases l2 with
    | nil => exact absurd hp.symm.nil_eq (by simp)
    | cons b t2 =>
      obtain ⟨hat1, ht1⟩ := List.pairwise_cons.mp h1
      obtain ⟨hbt2, ht2⟩ := List.pairwise_cons.mp h2
      have hb1 : b ∈ a :: t1 := hp.symm.subset (by simp)
      have ha2 : a ∈ b :: t2 := hp.subset (by simp)
      have hab : a = b := by
        rcases List.mem_cons.mp hb1 with h | hbint1
        · exact h.symm
        · rcases List.mem_cons.mp ha2 with h | haint2
          · exact h
          · have h3 : le a b = true := hat1 b hbint1
            have h4 : le b a = true := hbt2 a haint2
            exact hanti a (by simp) b (by simp [hbint1]) h3 h4
      subst hab
      have htp : t1.Perm t2 := hp.cons_inv
      have : t1 = t2 := by
        refine ih t2 htp ht1 ht2 ?_
        intro x hx y hy
        exact hanti x (by simp [hx]) y (by simp [hy])
      rw [this]

/-- C2 (amended): the merge output is independent of the input ordering
provided no two distinct input segments share the same sort key
`(start_sec, end_sec, label)`.  (With duplicate keys the stable sort keeps
input order, so shuffling tied segments can permute output lines; see
`C2_counterexample`.) -/
theorem C2_merge_deterministic (mic1 spk1 mic2 spk2 : List Segment)
    (hp : (mic1 ++ spk1).Perm (mic2 ++ spk2))
    (hinj : ∀ a ∈ mic1 ++ spk1, ∀ b ∈ mic1 ++ spk1, segKey a = segKey b → a = b) :
    mergedOutput mic1 spk1 = mergedOutput mic2 spk2 := by
  have hsorteq : stableSort segLe (mic1 ++ spk1) = stableSort segLe (mic2 ++ spk2) := by
    refine sorted_unique segLe _ _
      (((stableSort_perm segLe _).trans hp).trans (stableSort_perm segLe _).symm)
      (stableSort_pairwise segLe segLe_total segLe_trans _)
      (stableSort_pairwise segLe segLe_total segLe_trans _) ?_
    intro a ha b hb h1 h2
    have ha' : a ∈ mic1 ++ spk1 := (stableSort_perm segLe _).subset ha
    have hb' : b ∈ mic1 ++ spk1 := (stableSort_perm segLe _).subset hb
    exact hinj a ha' b hb' (segLe_antisymm_key a b h1 h2)
  rw [mergedOutput, mergedOutput, hsorteq]

/-- Witness for C2: swapping two distinct-key segments between calls. -/
theorem C2_merge_deterministic_witness :
    (([⟨"00:01.0".toList, "00:02.0".toList, 1, 2, "A".toList, Label.mic⟩] ++
        [⟨"00:03.0".toList, "00:04.0".toList, 3, 4, "B".toList, Label.speaker⟩]
        : List Segment).Perm
      ([⟨"00:03.0".toList, "00:04.0".toList, 3, 4, "B".toList, Label.speaker⟩] ++
        [⟨"00:01.0".toList, "00:02.0".toList, 1, 2, "A".toList, Label.mic⟩])) ∧
    mergedOutput
        [⟨"00:01.0".toList, "00:02.0".toList, 1, 2, "A".toList, Label.mic⟩]
        [⟨"00:03.0".toList, "00:04.0".toList, 3, 4, "B".toList, Label.speaker⟩] =
      mergedOutput
        [⟨"00:03.0".toList, "00:04.0".toList, 3, 4, "B".toList, Label.speaker⟩]
        [⟨"00:01.0".toList, "00:02.0".toList, 1, 2, "A".toList, Label.mic⟩] :=
  ⟨by decide,
    C2_merge_deterministic _ _ _ _ (by decide) (by decide)⟩

theorem lineBuild_inj (a b lab t1 t2 : Str)
    (h : lineBuild a b lab t1 = lineBuild a b lab t2) : t1 = t2 := by
  unfold lineBuild at h
  have h1 := List.append_cancel_right h
  have h2 := List.append_cancel_left h1
  simpa using h2

/-- Swapping two segments that tie on the whole sort key but differ in text
changes the merge output byte-for-byte: the stable sort preserves their input
order. -/
theorem mergedOutput_pair_swap_ne (s1 s2 : Segment) (pa pb : Str)
    (h1s : to_mmss s1.start = some pa) (h1e : to_mmss s1.end_ = some pb)
    (h2s : to_mmss s2.start = some pa) (h2e : to_mmss s2.end_ = some pb)
    (hlab : s1.label = s2.label)
    (hlen : s1.text.length = s2.text.length)
    (htext : s1.text ≠ s2.text)
    (hle12 : segLe s1 s2 = true) (hle21 : segLe s2 s1 = true) :
    mergedOutput [s1, s2] [] ≠ mergedOutput [s2, s1] [] := by
  intro h
  have hsort12 : stableSort segLe ([s1, s2] ++ []) = [s1, s2] := by
    simp [stableSort, stableInsert, hle12]
  have hsort21 : stableSort segLe ([s2, s1] ++ []) = [s2, s1] := by
    simp [stableSort, stableInsert, hle21]
  rw [mergedOutput, mergedOutput, hsort12, hsort21] at h
  have hr1 : renderLine s1 = some (lineBuild pa pb (labelStr s1.label) s1.text) := by
    simp only [renderLine, h1s, h1e]
  have hr2 : renderLine s2 = some (lineBuild pa pb (labelStr s2.label) s2.text) := by
    simp only [renderLine, h2s, h2e]
  simp only [renderAll, hr1, hr2, List.append_nil, Option.some.injEq] at h
  rw [hlab] at h
  have hlenB : (lineBuild pa pb (labelStr s2.label) s1.text).length =
      (lineBuild pa pb (labelStr s2.label) s2.text).length := by
    simp [lineBuild, hlen]
  obtain ⟨heq, -⟩ := List.append_inj h hlenB
  exact htext (lineBuild_inj _ _ _ _ _ heq)

/-- C2 counterexample: two segments from the same source with identical
timestamps (hence identical sort keys `(start_sec, end_sec, label)`) but
different text.  They are a shuffled ordering of the same segment multiset,
yet the merge outputs differ — the claimed byte-identical reproducibility
fails, because the key cannot break this tie. -/
theorem C2_counterexample :
    (([⟨"00:01.0".toList, "00:02.0".toList, 1, 2, "A".toList, Label.mic⟩,
        ⟨"00:01.0".toList, "00:02.0".toList, 1, 2, "B".toList, Label.mic⟩]
        : List Segment).Perm
      [⟨"00:01.0".toList, "00:02.0".toList, 1, 2, "B".toList, Label.mic⟩,
        ⟨"00:01.0".toList, "00:02.0".toList, 1, 2, "A".toList, Label.mic⟩]) ∧
    mergedOutput
        [⟨"00:01.0".toList, "00:02.0".toList, 1, 2, "A".toList, Label.mic⟩,
          ⟨"00:01.0".toList, "00:02.0".toList, 1, 2, "B".toList, Label.mic⟩] [] ≠
      mergedOutput
        [⟨"00:01.0".toList, "00:02.0".toList, 1, 2, "B".toList, Label.mic⟩,
          ⟨"00:01.0".toList, "00:02.0".toList, 1, 2, "A".toList, Label.mic⟩] [] :=
  ⟨by decide,
    mergedOutput_pair_swap_ne _ _ _ _ rfl rfl rfl rfl rfl rfl
      (by decide) (by decide) (by decide)⟩

/-! ### C3: merge is all-or-nothing with delete-on-success only -/

/-- C3: if either source transcript is missing, `merge_transcripts` changes
nothing and performs no destructive effect; the source files are deleted
exactly when the combined write completed (result `.ok`), never on a write
failure; and in the effect trace every deletion is strictly preceded by the
completed combined write. -/
theorem C3_merge_all_or_nothing (fs : FS) (writeOk : Bool) (leftover : Str)
    (fs' : FS) (res : MergeResult) (tr : List MEvent)
    (h : merge_transcripts fs writeOk leftover = (fs', res, tr)) :
    ((fs.mic = none ∨ fs.spk = none) →
      fs' = fs ∧ res = .missingInputs ∧ tr = []) ∧
    ((MEvent.removeMic ∈ tr ∨ MEvent.removeSpk ∈ tr) ↔ res = .ok) ∧
    (res = .ok → fs'.mic = none ∧ fs'.spk = none ∧ fs'.out ≠ none) ∧
    (res ≠ .ok → fs'.mic = fs.mic ∧ fs'.spk = fs.spk) ∧
    (∀ i : ℕ, ∀ e, tr[i]? = some e → e ≠ MEvent.writeCombined →
      ∃ j < i, tr[j]? = some MEvent.writeCombined) := by
  rw [merge_transcripts] at h
  cases hm : fs.mic with
  | none =>
    rw [hm] at h
    simp only [Prod.mk.injEq] at h
    obtain ⟨h1, h2, h3⟩ := h
    subst h1; subst h2; subst h3
    refine ⟨fun _ => ⟨rfl, rfl, rfl⟩, by simp, by simp, fun _ => ⟨hm, rfl⟩, ?_⟩
    intro i e hget
    simp at hget
  | some micC =>
  rw [hm] at h
  cases hs : fs.spk with
  | none =>
    rw [hs] at h
    simp only [Prod.mk.injEq] at h
    obtain ⟨h1, h2, h3⟩ := h
    subst h1; subst h2; subst h3
    refine ⟨fun _ => ⟨rfl, rfl, rfl⟩, by simp, by simp, fun _ => ⟨hm, hs⟩, ?_⟩
    intro i e hget
    simp at hget
  | some spkC =>
  simp only [hs] at h
  cases hr : renderAll (stableSort segLe
      (parse_file micC .mic ++ parse_file spkC .speaker)) with
  | none =>
    simp only [hr] at h
    simp only [Prod.mk.injEq] at h
    obtain ⟨h1, h2, h3⟩ := h
    subst h1; subst h2; subst h3
    refine ⟨?_, by simp, by simp, fun _ => ⟨rfl, rfl⟩, ?_⟩
    · intro hcase
      rcases hcase with hc | hc <;> simp at hc
    · intro i e hget
      simp at hget
  | some content =>
  simp only [hr] at h
  cases hw : writeOk with
  | false =>
    rw [hw, if_neg (by simp)] at h
    simp only [Prod.mk.injEq] at h
    obtain ⟨h1, h2, h3⟩ := h
    subst h1; subst h2; subst h3
    refine ⟨?_, by simp, by simp, fun _ => ⟨rfl, rfl⟩, ?_⟩
    · intro hcase
      rcases hcase with hc | hc <;> simp at hc
    · intro i e hget
      simp at hget
  | true =>
    rw [hw, if_pos rfl] at h
    simp only [Prod.mk.injEq] at h
    obtain ⟨h1, h2, h3⟩ := h
    subst h1; subst h2; subst h3
    refine ⟨?_, by simp, fun _ => ⟨rfl, rfl, by simp⟩,
      fun hne => absurd rfl hne, ?_⟩
    · intro hcase
      rcases hcase with hc | hc <;> simp at hc
    · intro i e hget hne
      match i with
      | 0 =>
        simp only [List.getElem?_cons_zero, Option.some.injEq] at hget
        exact absurd hget.symm hne
      | 1 => exact ⟨0, by omega, rfl⟩
      | 2 => exact ⟨0, by omega, rfl⟩
      | (n + 3) => simp at hget

/-- Witness for C3: a run with the mic transcript absent (nothing happens) and
a run with both sources present and a successful write (both deleted, strictly
after the write). -/
theorem C3_merge_all_or_nothing_witness :
    ((⟨none, some [], none⟩ : FS) = ⟨none, some [], none⟩ ∧
      MergeResult.missingInputs = MergeResult.missingInputs ∧
      ([] : List MEvent) = []) ∧
    ((MEvent.removeMic ∈ [MEvent.writeCombined, MEvent.removeMic, MEvent.removeSpk] ∨
        MEvent.removeSpk ∈ [MEvent.writeCombined, MEvent.removeMic, MEvent.removeSpk]) ↔
      MergeResult.ok = MergeResult.ok) :=
  ⟨(C3_merge_all_or_nothing ⟨none, some [], none⟩ true [] _ _ _ rfl).1 (Or.inl rfl),
    (C3_merge_all_or_nothing ⟨some [], some [], none⟩ true [] _ _ _ rfl).2.1⟩

/-! ### C6: supervisor start atomicity -/

/-- C6: with the scripts present and the flag clear, if either worker has
already exited at the settle check, `start_recording` fails with a
worker-failure outcome, terminates the other worker (neither worker is left
running), resets the flag and leaves the handle table empty. -/
theorem C6_start_atomic (s : LState) (micPoll spkPoll : Option ℤ)
    (h : s.is_recording = false) (hfail : micPoll ≠ none ∨ spkPoll ≠ none) :
    (start_recording s true micPoll spkPoll).state.is_recording = false ∧
    (start_recording s true micPoll spkPoll).state.procs = [] ∧
    (∃ w c, (start_recording s true micPoll spkPoll).outcome = .failed w c) ∧
    (start_recording s true micPoll spkPoll).micStatus ≠ some .running ∧
    (start_recording s true micPoll spkPoll).spkStatus ≠ some .running := by
  rw [start_recording.eq_def, if_neg (by rw [h]; simp), if_neg (by simp)]
  cases micPoll with
  | some c =>
    refine ⟨rfl, rfl, ⟨.mic, c, rfl⟩, by simp, ?_⟩
    cases spkPoll <;> simp
  | none =>
    cases spkPoll with
    | some c => exact ⟨rfl, rfl, ⟨.speaker, c, rfl⟩, by simp, by simp⟩
    | none =>
      rcases hfail with hf | hf <;> exact absurd rfl hf

/-- Witness for C6: the mic worker already exited with code 1 while the speaker is
still running. -/
theorem C6_start_atomic_witness :
    (start_recording ⟨false, []⟩ true (some 1) none).state.is_recording = false ∧
    (start_recording ⟨false, []⟩ true (some 1) none).state.procs = [] ∧
    (∃ w c, (start_recording ⟨false, []⟩ true (some 1) none).outcome = .failed w c) ∧
    (start_recording ⟨false, []⟩ true (some 1) none).micStatus ≠ some .running ∧
    (start_recording ⟨false, []⟩ true (some 1) none).spkStatus ≠ some .running :=
  C6_start_atomic ⟨false, []⟩ (some 1) none rfl (Or.inl (by simp))

/-! ### C7: supervisor stop completeness -/

/-- C7: whenever the stop sequence runs (the flag is set), it clears the
handle table and the flag, and every previously tracked worker ends not
running — it either exited within the bounded wait or was forcibly killed,
including when the cooperative interrupt was ignored. -/
theorem C7_stop_complete (s : LState) (alive sigFails exitsInTime : PName → Bool)
    (code : PName → ℤ) (h : s.is_recording = true) :
    (stop_recording s alive sigFails exitsInTime code).1 = ⟨false, []⟩ ∧
    ∀ p ∈ s.procs,
      ∃ st, (stop_recording s alive sigFails exitsInTime code).2.2 p = some st ∧
        st ≠ PStatus.running := by
  rw [stop_recording, if_neg (by rw [h]; simp)]
  refine ⟨rfl, fun p hp => ⟨stop_one (exitsInTime p) (code p), ?_, ?_⟩⟩
  · simp [hp]
  · rw [stop_one]
    cases exitsInTime p <;> simp

/-- Witness for C7: both workers tracked; the mic worker ignores the
interrupt (kill path), the speaker exits in time. -/
theorem C7_stop_complete_witness :
    (stop_recording ⟨true, [PName.mic, PName.speaker]⟩ (fun _ => true)
        (fun _ => false) (fun p => p == PName.speaker) (fun _ => 0)).1 =
      ⟨false, []⟩ ∧
    ∀ p ∈ [PName.mic, PName.speaker],
      ∃ st, (stop_recording ⟨true, [PName.mic, PName.speaker]⟩ (fun _ => true)
          (fun _ => false) (fun p => p == PName.speaker) (fun _ => 0)).2.2 p =
        some st ∧ st ≠ PStatus.running :=
  C7_stop_complete ⟨true, [PName.mic, PName.speaker]⟩ (fun _ => true)
    (fun _ => false) (fun p => p == PName.speaker) (fun _ => 0) rfl

/-! ### C8: session exclusivity and the toggle -/

/-- C8 (amended): the toggle is interpreted solely through the
`is_recording` flag.  While the flag is set (Recording and the worker-stop
part of Stopping) a toggle calls the stop routine, and `start_recording`
refuses to run, so no second recording can begin then; but in every phase
where the flag is clear — including WaitingArtifacts, Merging and
Summarizing — a dispatched toggle calls `start_recording`, which proceeds to
launch a new recording cycle rather than being ignored. -/
theorem C8_toggle_by_flag (p : Phase) (s : LState) (e : Bool)
    (mp sp : Option ℤ) :
    (is_recording_flag p = true → on_bubble_click p = .stopCall) ∧
    (is_recording_flag p = false → on_bubble_click p = .startCall) ∧
    (s.is_recording = true →
      start_recording s e mp sp = ⟨s, .alreadyRecording, none, none⟩) := by
  refine ⟨fun hf => ?_, fun hf => ?_, fun hrec => ?_⟩
  · rw [on_bubble_click, if_pos hf]
  · rw [on_bubble_click, hf]
    simp
  · rw [start_recording.eq_def, if_pos hrec]

/-- Witness for C8 at the Recording and WaitingArtifacts phases. -/
theorem C8_toggle_by_flag_witness :
    on_bubble_click Phase.recording = ToggleAction.stopCall ∧
    on_bubble_click Phase.waitingArtifacts = ToggleAction.startCall ∧
    start_recording ⟨true, [PName.mic, PName.speaker]⟩ true none none =
      ⟨⟨true, [PName.mic, PName.speaker]⟩, .alreadyRecording, none, none⟩ :=
  ⟨(C8_toggle_by_flag Phase.recording ⟨true, []⟩ true none none).1 rfl,
    (C8_toggle_by_flag Phase.waitingArtifacts ⟨true, []⟩ true none none).2.1 rfl,
    (C8_toggle_by_flag Phase.idle ⟨true, [PName.mic, PName.speaker]⟩ true
      none none).2.2 rfl⟩

/-- C8 counterexample: a toggle dispatched during WaitingArtifacts — the
`is_recording` flag is already false there, and `root.update()` runs inside
the artifact-wait loop, so clicks are dispatched — invokes `start_recording`,
which launches a new recording cycle: the toggle is not ignored, and a new
session starts while the previous cycle is still before its Merging step. -/
theorem C8_counterexample :
    on_bubble_click Phase.waitingArtifacts = ToggleAction.startCall ∧
    (start_recording ⟨false, []⟩ true none none).outcome = StartOutcome.started ∧
    (start_recording ⟨false, []⟩ true none none).state.is_recording = true ∧
    (start_recording ⟨false, []⟩ true none none).state.procs =
      [PName.mic, PName.speaker] :=
  ⟨rfl, rfl, rfl, rfl⟩

/-! ### C9: presence detection is edge-triggered -/

theorem monitorRun_cons_eq (d d1 : Bool) (es : List MonEvent)
    (p : List Str × Bool) (ps : List (List Str × Bool))
    (h : monitorStep p.2 d p.1 = (d1, es)) :
    monitorRun d (p :: ps) =
      ((monitorRun d1 ps).1, es ++ (monitorRun d1 ps).2) := by
  cases hr : monitorRun d1 ps with
  | mk d2 rest => simp only [monitorRun, h, hr]

theorem monitorStep_present_false (r : Bool) (t : List Str) (a : Str)
    (h : check_meeting_running t = some a) :
    monitorStep r false t = (true, [MonEvent.entered a]) := by
  unfold monitorStep
  rw [h]

theorem monitorStep_present_true (r : Bool) (t : List Str)
    (h : (check_meeting_running t).isSome = true) :
    monitorStep r true t = (true, []) := by
  obtain ⟨a, ha⟩ := Option.isSome_iff_exists.mp h
  unfold monitorStep
  rw [ha]

/-- Falling edge while not recording: the flag falls and one exited event is
emitted. -/
theorem monitorStep_absent_true_notrec (t : List Str)
    (h : check_meeting_running t = none) :
    monitorStep false true t = (false, [MonEvent.exited]) := by
  unfold monitorStep
  rw [h]
  rfl

/-- Falling edge while recording: the flag falls silently — the source guards
the emission by `not is_recording`. -/
theorem monitorStep_absent_true_rec (t : List Str)
    (h : check_meeting_running t = none) :
    monitorStep true true t = (false, []) := by
  unfold monitorStep
  rw [h]
  rfl

theorem monitorStep_absent_false (r : Bool) (t : List Str)
    (h : check_meeting_running t = none) :
    monitorStep r false t = (false, []) := by
  unfold monitorStep
  rw [h]

/-- During steady-state presence the monitor emits nothing and stays
detected, whatever the recording flag does. -/
theorem monitorRun_steady_present (pres : List (List Str × Bool))
    (hpres : ∀ p ∈ pres, (check_meeting_running p.1).isSome = true)
    (rest : List (List Str × Bool)) :
    monitorRun true (pres ++ rest) = monitorRun true rest := by
  induction pres with
  | nil => rfl
  | cons t ts ih =>
    have ht := monitorStep_present_true t.2 t.1 (hpres t (by simp))
    rw [List.cons_append, monitorRun_cons_eq true true [] t (ts ++ rest) ht,
      ih (fun x hx => hpres x (by simp [hx]))]
    simp

/-- C9 (amended): over any poll sequence, a maximal run of consecutive
present polls (first poll seeing app `a`, taken from the not-detected state)
emits exactly one `entered a` — on its first poll, whatever the recording
flag — and the first subsequent absent poll emits exactly one `exited`
provided no recording is in progress at that poll (the source suppresses the
exited emission while `is_recording` is set; the detected flag still falls
and the monitor continues from the not-detected state).  An absent poll in
the not-detected state emits nothing. -/
theorem C9_presence_edge_triggered (t0 tA : List Str) (r0 rA : Bool)
    (pres tail : List (List Str × Bool)) (a : Str)
    (h0 : check_meeting_running t0 = some a)
    (hpres : ∀ p ∈ pres, (check_meeting_running p.1).isSome = true)
    (hA : check_meeting_running tA = none) :
    (monitorRun false (((t0, r0) :: pres) ++ (tA, false) :: tail)).2 =
      MonEvent.entered a :: MonEvent.exited :: (monitorRun false tail).2 ∧
    (monitorRun false ((tA, rA) :: tail)).2 = (monitorRun false tail).2 := by
  constructor
  · rw [List.cons_append,
      monitorRun_cons_eq false true [MonEvent.entered a] (t0, r0)
        (pres ++ (tA, false) :: tail) (monitorStep_present_false r0 t0 a h0),
      monitorRun_steady_present pres hpres ((tA, false) :: tail),
      monitorRun_cons_eq true false [MonEvent.exited] (tA, false) tail
        (monitorStep_absent_true_notrec tA hA)]
    simp
  · rw [monitorRun_cons_eq false false [] (tA, rA) tail
      (monitorStep_absent_false rA tA hA)]
    simp

/-- Witness for C9: Zoom present for three polls (recording starts during the
run), then absent with the recording already stopped. -/
theorem C9_presence_edge_triggered_witness :
    (monitorRun false
        (([ (["zoom.exe".toList], false) ] ++
            [ (["zoom.exe".toList], true), (["cpthost.exe".toList], true) ]) ++
          ([], false) :: [ ([], false), (["zoom.exe".toList], false) ])).2 =
      MonEvent.entered "Zoom".toList :: MonEvent.exited ::
        (monitorRun false [ ([], false), (["zoom.exe".toList], false) ]).2 ∧
    (monitorRun false
        (([], true) :: [ ([], false), (["zoom.exe".toList], false) ])).2 =
      (monitorRun false [ ([], false), (["zoom.exe".toList], false) ]).2 :=
  C9_presence_edge_triggered ["zoom.exe".toList] [] false true
    [ (["zoom.exe".toList], true), (["cpthost.exe".toList], true) ]
    [ ([], false), (["zoom.exe".toList], false) ]
    "Zoom".toList (by decide) (by decide) (by decide)

/-- C9 counterexample: a present poll followed by an absent poll taken while
`is_recording` is set.  The run emits the one entered event but no exited
event at all — the source's `if root and not is_recording:` guard suppresses
it — refuting the claim that the first absent poll after a present run always
emits exactly one exited event. -/
theorem C9_counterexample :
    (monitorRun false [(["zoom.exe".toList], false), ([], true)]).2 =
      [MonEvent.entered "Zoom".toList] ∧
    MonEvent.exited ∉
      (monitorRun false [(["zoom.exe".toList], false), ([], true)]).2 := by
  constructor
  · decide
  · decide

/-! ### C10: browsers never match -/

/-- C10: a bare web-browser process name never produces a meeting-app match,
and consequently — browser names being the only identifiers configured for
"Google Meet" — `check_meeting_running` returns "Google Meet" for no process
table whatsoever. -/
theorem C10_no_browser_match (procs : List Str) :
    check_meeting_running procs ≠ some ("Google Meet".toList) := by
  intro h
  simp only [check_meeting_running] at h
  obtain ⟨app, happ, hinner⟩ := List.exists_of_findSome?_eq_some h
  obtain ⟨pn, hpn, hif⟩ := List.exists_of_findSome?_eq_some hinner
  by_cases h1 : lowerStr pn ∈ procs.map lowerStr
  · rw [if_pos h1] at hif
    by_cases h2 : lowerStr pn ∈ BROWSERS
    · rw [if_pos h2] at hif
      exact absurd hif (by simp)
    · rw [if_neg h2] at hif
      simp only [Option.some.injEq] at hif
      simp only [MEETING_APPS, List.mem_cons, List.not_mem_nil, or_false] at happ
      rcases happ with rfl | rfl | rfl
      · revert hif; decide
      · revert hif; decide
      · simp only [List.mem_cons, List.not_mem_nil, or_false] at hpn
        rcases hpn with rfl | rfl | rfl <;> revert h2 <;> decide
  · rw [if_neg h1] at hif
    exact absurd hif (by simp)

end Octi
